import Mathlib

/-!
Verification of the transactional mod-installer `install.py`.

Python strings are modelled as `List Char` (`PyStr`); Python's `os.path`
functions (POSIX flavour, as used on the Linux code path) are translated
from CPython's `posixpath` module; the filesystem is modelled as an
association list from canonical absolute paths to entries, with every
OS-level access canonicalizing its argument first (no symlinks).
-/

set_option maxRecDepth 10000

abbrev PyStr := List Char

/-- `s.startswith(pre)` on Python strings. -/
def pyStartsWith (s pre : PyStr) : Bool := pre.isPrefixOf s

/-- `s.endswith(suf)` on Python strings. -/
def pyEndsWith (s suf : PyStr) : Bool := suf.isSuffixOf s

namespace Posix

def sep : Char := '/'

/-- `posixpath.isabs`. -/
def isabs (p : PyStr) : Bool := pyStartsWith p [sep]

/-- `posixpath.join` on two arguments: if `b` is absolute the result is `b`;
otherwise `b` is appended to `a` with a separator inserted when needed. -/
def join (a b : PyStr) : PyStr :=
  if pyStartsWith b [sep] then b
  else if a = [] ∨ pyEndsWith a [sep] then a ++ b
  else a ++ sep :: b

/-- `posixpath.join(*args)` on a non-empty argument list (folds `join`). -/
def joinList : List PyStr → PyStr
  | [] => []
  | p :: rest => rest.foldl join p

/-- The number of initial slashes `posixpath.normpath` preserves:
2 for exactly two leading slashes (POSIX special case), else 1 or 0. -/
def initialSlashes (p : PyStr) : Nat :=
  if pyStartsWith p [sep] then
    if pyStartsWith p [sep, sep] ∧ ¬ pyStartsWith p [sep, sep, sep] then 2 else 1
  else 0

/-- One step of `posixpath.normpath`'s component loop: skip `''` and `'.'`,
append ordinary components, and for `'..'` either keep it (at the start of a
relative path, or after another kept `'..'`) or pop the previous component. -/
def normStep (slashes : Nat) (acc : List PyStr) (comp : PyStr) : List PyStr :=
  if comp = [] ∨ comp = ['.'] then acc
  else if comp ≠ ['.', '.'] ∨ (slashes = 0 ∧ acc = []) ∨
      (acc ≠ [] ∧ acc.getLast? = some ['.', '.']) then acc ++ [comp]
  else if acc ≠ [] then acc.dropLast
  else acc

/-- `posixpath.normpath`. -/
def normpath (p : PyStr) : PyStr :=
  if p = [] then ['.']
  else
    let slashes := initialSlashes p
    let comps := p.splitOn sep
    let newComps := comps.foldl (normStep slashes) []
    let joined := List.replicate slashes sep ++ [sep].intercalate newComps
    if joined = [] then ['.'] else joined

/-- `posixpath.abspath`, with the process working directory made explicit. -/
def abspath (cwd p : PyStr) : PyStr :=
  if isabs p then normpath p else normpath (join cwd p)

/-- Index one past the last separator of `p` (`p.rfind('/') + 1`). -/
def splitIdx : PyStr → Nat
  | [] => 0
  | c :: rest =>
    let r := splitIdx rest
    if r = 0 ∧ c ≠ sep then 0 else r + 1

/-- `s.rstrip('/')`. -/
def rstripSep (p : PyStr) : PyStr := (p.reverse.dropWhile (· = sep)).reverse

/-- `posixpath.split`: split into `(head, tail)` at the last separator,
stripping trailing separators from a head that is not all separators. -/
def psplit (p : PyStr) : PyStr × PyStr :=
  let i := splitIdx p
  let head := p.take i
  let tail := p.drop i
  let head2 := if head ≠ [] ∧ ¬ head.all (· = sep) then rstripSep head else head
  (head2, tail)

/-- Length of the common elementwise prefix of two component lists
(`genericpath.commonprefix` on the pair). -/
def commonPrefixLen : List PyStr → List PyStr → Nat
  | a :: as, b :: bs => if a = b then commonPrefixLen as bs + 1 else 0
  | _, _ => 0

/-- `posixpath.relpath`, with the working directory explicit. -/
def relpath (cwd path start : PyStr) : PyStr :=
  let startList := ((abspath cwd start).splitOn sep).filter (· ≠ [])
  let pathList := ((abspath cwd path).splitOn sep).filter (· ≠ [])
  let i := commonPrefixLen startList pathList
  let relList := List.replicate (startList.length - i) ['.', '.'] ++ pathList.drop i
  if relList = [] then ['.'] else joinList relList

end Posix

/-- `InstallSimulator.normpath`: `normpath(relpath(join(root, path), root))`. -/
def simNormpath (cwd root p : PyStr) : PyStr :=
  Posix.normpath (Posix.relpath cwd (Posix.join root p) root)

example : Posix.normpath ("a/b/../c".data) = "a/c".data := by decide
example : Posix.normpath ("/a//b/./c/..".data) = "/a/b".data := by decide
example : Posix.normpath ("../../x".data) = "../../x".data := by decide
example : Posix.normpath ("/..".data) = "/".data := by decide
example : Posix.normpath ([]) = ".".data := by decide
example : Posix.psplit ("a/b/c".data) = ("a/b".data, "c".data) := by decide
example : Posix.psplit ("/a".data) = ("/".data, "a".data) := by decide
example : Posix.psplit ("abc".data) = ([], "abc".data) := by decide
example : Posix.psplit ("a/b/".data) = ("a/b".data, []) := by decide
example : Posix.relpath ("/w".data) ("/a/b/c".data) ("/a/d".data) = "../b/c".data := by
  decide
example : simNormpath ("/w".data) ("/r".data) ("x/./y".data) = "x/y".data := by decide
example : simNormpath ("/w".data) ("/r".data) ("/r/x".data) = "x".data := by decide
example : simNormpath ("/w".data) ("/r".data) ([]) = ".".data := by decide
example : simNormpath ("/w".data) ("/r".data) ("../q".data) = "../q".data := by decide

/-! ## The VDF configuration parser (`ParseError`, `LineColTracker`, `parse_vdf`) -/

/-- The double-quote character (written numerically). -/
def qc : Char := Char.ofNat 34

/-- The backslash character. -/
def bsc : Char := Char.ofNat 92

/-- The opening-brace character. -/
def lbrace : Char := Char.ofNat 123

/-- The closing-brace character. -/
def rbrace : Char := Char.ofNat 125

/-- Python `str.isspace` on a single character (ASCII whitespace). -/
def pyIsspace (c : Char) : Bool :=
  c = ' ' ∨ c = '\t' ∨ c = '\n' ∨ c = '\r' ∨ c = Char.ofNat 11 ∨ c = Char.ofNat 12

/-- `LineColTracker`: a character stream plus the current line and column.
`line` starts at 1 and `col` at -1; consuming a newline increments `line` and
resets `col` to 0, any other character increments `col`. -/
structure Tracker where
  rest : PyStr
  line : Nat
  col : Int
deriving Repr, DecidableEq

/-- `LineColTracker.__next__`. -/
def tnext (t : Tracker) : Option (Char × Tracker) :=
  match t.rest with
  | [] => none
  | c :: rest =>
    if c = '\n' then some (c, ⟨rest, t.line + 1, 0⟩)
    else some (c, ⟨rest, t.line, t.col + 1⟩)

/-- The messages `parse_vdf` raises with (plus a fuel marker that is never
reached when the parser is run with enough fuel). -/
inductive PMsg where
  | expectedKey (c : Char)
  | expectedValue (c : Char)
  | badString (tok : PyStr)
  | eofBraces
  | eofKeyValue
  | outOfFuel
deriving Repr, DecidableEq

/-- `ParseError`: the carried line, column and message. -/
structure ParseError where
  line : Nat
  col : Int
  msg : PMsg
deriving Repr, DecidableEq

/-- Parsed VDF data: strings and nested objects. -/
inductive Vdf where
  | str (s : PyStr)
  | obj (entries : List (PyStr × Vdf))
deriving Repr

/-- Python `dict` assignment `d[k] = v`: overwrite in place if the key is
present (keeping its position), otherwise append. -/
def dictSet {α : Type} (m : List (PyStr × α)) (k : PyStr) (v : α) :
    List (PyStr × α) :=
  if (m.lookup k).isSome then m.map (fun e => if e.1 = k then (k, v) else e)
  else m ++ [(k, v)]

/-- One backslash escape, as Python string literals decode it: recognized
escapes map to their character, unrecognized ones keep the backslash.
Modelled from Python string-literal semantics for `ast.literal_eval`. -/
def escChar (c : Char) : PyStr :=
  if c = bsc then [bsc]
  else if c = qc then [qc]
  else if c = Char.ofNat 39 then [Char.ofNat 39]
  else if c = 'n' then ['\n']
  else if c = 't' then ['\t']
  else if c = 'r' then ['\r']
  else [bsc, c]

/-- Decode the body of a double-quoted Python string literal: fails when an
escape swallows the closing quote, on an embedded raw quote, or on a raw
newline (a literal may not span lines). -/
def decodeBody : PyStr → Option PyStr
  | [] => some []
  | c :: rest =>
    if c = bsc then
      match rest with
      | [] => none
      | d :: rest2 => (decodeBody rest2).map (fun s => escChar d ++ s)
    else if c = qc then none
    else if c = '\n' ∨ c = '\r' then none
    else (decodeBody rest).map (fun s => c :: s)

/-- Modelled from Python `ast.literal_eval`, restricted to the tokens the VDF
parser accumulates: a double-quote delimited token whose body is decoded as a
string literal; anything else fails. -/
def literalEval (tok : PyStr) : Option PyStr :=
  if 2 ≤ tok.length ∧ tok.head? = some qc ∧ tok.getLast? = some qc then
    decodeBody (tok.drop 1).dropLast
  else none

/-- The four states of `parse_vdf`'s loop. -/
inductive PState where
  | waitKey | key | waitValue | value
deriving Repr, DecidableEq

/-- `parse_vdf`, fuelled (the fuel only bounds recursion depth; one unit per
consumed character always suffices).  Arguments mirror the Python locals:
the tracker, the `subvdf` flag, the loop state, the `k` and `v` string
accumulators and the `data` dict. -/
def parseVdfF : Nat → Tracker → Bool → PState → PyStr → PyStr →
    List (PyStr × Vdf) → Except ParseError (List (PyStr × Vdf) × Tracker)
  | 0, t, _, _, _, _, _ => .error ⟨t.line, t.col, .outOfFuel⟩
  | fuel + 1, t, sub, st, k, v, data =>
    match tnext t with
    | none =>
      if sub then .error ⟨t.line, t.col, .eofBraces⟩
      else if st ≠ .waitKey then .error ⟨t.line, t.col, .eofKeyValue⟩
      else .ok (data, t)
    | some (c, t2) =>
      match st with
      | .waitKey =>
        if pyIsspace c then parseVdfF fuel t2 sub .waitKey k v data
        else if c = qc then parseVdfF fuel t2 sub .key [qc] v data
        else if c = rbrace ∧ sub then .ok (data, t2)
        else .error ⟨t2.line, t2.col, .expectedKey c⟩
      | .key =>
        let k2 := k ++ [c]
        if c = qc ∧ k2.getLast? ≠ some bsc then
          match literalEval k2 with
          | some ks => parseVdfF fuel t2 sub .waitValue ks v data
          | none => .error ⟨t2.line, t2.col, .badString k2⟩
        else parseVdfF fuel t2 sub .key k2 v data
      | .waitValue =>
        if pyIsspace c then parseVdfF fuel t2 sub .waitValue k v data
        else if c = qc then parseVdfF fuel t2 sub .value k [qc] data
        else if c = lbrace then
          match parseVdfF fuel t2 true .waitKey [] [] [] with
          | .ok (subdata, t3) =>
            parseVdfF fuel t3 sub .waitKey [] [] (dictSet data k (.obj subdata))
          | .error e => .error e
        else .error ⟨t2.line, t2.col, .expectedValue c⟩
      | .value =>
        let v2 := v ++ [c]
        if c = qc ∧ v2.getLast? ≠ some bsc then
          match literalEval v2 with
          | some vs =>
            parseVdfF fuel t2 sub .waitKey [] [] (dictSet data k (.str vs))
          | none => .error ⟨t2.line, t2.col, .badString v2⟩
        else parseVdfF fuel t2 sub .value k v2 data

/-- `parse_vdf(stream)` on a whole input string. -/
def parseVdf (input : PyStr) : Except ParseError (List (PyStr × Vdf)) :=
  (parseVdfF (input.length + 1) ⟨input, 1, -1⟩ false .waitKey [] [] []).map
    (fun r => r.1)

/-- The tracker position (line, col) after consuming a list of characters. -/
def posAfter (consumed : PyStr) : Nat × Int :=
  consumed.foldl
    (fun p ch => if ch = '\n' then (p.1 + 1, (0 : Int)) else (p.1, p.2 + 1))
    (1, -1)

example :
    parseVdf ([qc, 'a', qc, ' ', qc, 'b', qc]) =
      .ok [(['a'], .str ['b'])] := by rfl

example :
    parseVdf ([qc, 'a', qc, ' ', lbrace, ' ', qc, 'd', qc, ' ', qc, 'e', qc,
      ' ', rbrace]) = .ok [(['a'], .obj [(['d'], .str ['e'])])] := by rfl

example :
    parseVdf ([qc, 'a', qc, ' ', qc, 'b', qc, ' ', qc, 'c', qc]) =
      .error ⟨1, 10, .eofKeyValue⟩ := by rfl

example :
    parseVdf ([qc, 'a', qc, ' ', lbrace]) = .error ⟨1, 4, .eofBraces⟩ := by rfl

/-- The 0-based column of the character following `pre` on its own line:
the number of characters of `pre` after its last newline. -/
def zeroBasedCol (pre : PyStr) : Nat := (pre.reverse.takeWhile (· ≠ '\n')).length

theorem posAfter_characterization (pre : PyStr) :
    posAfter pre =
      (pre.count '\n' + 1,
        (zeroBasedCol pre : Int) - 1 + (if pre.contains '\n' then 1 else 0)) := by
  induction pre using List.reverseRecOn with
  | nil => simp [posAfter, zeroBasedCol]
  | append_singleton pre a ih =>
    rw [posAfter, List.foldl_append]
    rw [posAfter] at ih
    rw [ih]
    by_cases ha : a = '\n'
    · subst ha
      simp [zeroBasedCol, List.count_append]
    · simp only [List.foldl_cons, List.foldl_nil, if_neg ha]
      have hz : zeroBasedCol (pre ++ [a]) = zeroBasedCol pre + 1 := by
        simp [zeroBasedCol, List.takeWhile_cons, ha]
      have hc : (pre ++ [a]).contains '\n' = pre.contains '\n' := by
        simp [List.contains, List.elem_eq_mem, List.mem_append, ha, Ne.symm ha]
      have hcount : (pre ++ [a]).count '\n' = pre.count '\n' := by
        simp [List.count_append, List.count_singleton, ha, Ne.symm ha]
      rw [hz, hc, hcount]
      push_cast
      ring_nf

/-- C8 (counterexample): on the input `"\nx"` the offending character `x`
sits at 0-based column 0 of line 2, but the parser reports column 1: the
carried column is not 0-based on every line, refuting the claim as stated. -/
theorem c8_column_counterexample :
    parseVdf ['\n', 'x'] = .error ⟨2, 1, .expectedKey 'x'⟩ ∧ (1 : Int) ≠ 0 := by
  exact ⟨by rfl, by decide⟩

/-- C8 (amended): whenever the parser, waiting for a key or for a value,
meets a character that is not whitespace, not a double quote, not a closing
brace ending a nested object (key position) and not an opening brace (value
position), it raises a parse error carrying the 1-based line of the offending
character and a column that is the 0-based column on the first line of the
input but the 0-based column plus one on subsequent lines (the newline itself
is counted at column 0).  `pre` is the already-consumed input. -/
theorem c8_error_position (fuel : Nat) (pre rest : PyStr) (c : Char)
    (sub : Bool) (k v : PyStr) (data : List (PyStr × Vdf)) (st : PState)
    (hst : st = .waitKey ∨ st = .waitValue)
    (hsp : ¬ pyIsspace c) (hq : c ≠ qc)
    (hk : st = .waitKey → ¬ (c = rbrace ∧ sub))
    (hv : st = .waitValue → c ≠ lbrace) :
    parseVdfF (fuel + 1) ⟨c :: rest, (posAfter pre).1, (posAfter pre).2⟩
        sub st k v data =
      .error ⟨pre.count '\n' + 1,
        (zeroBasedCol pre : Int) + (if pre.contains '\n' then 1 else 0),
        if st = .waitKey then .expectedKey c else .expectedValue c⟩ := by
  have hnl : c ≠ '\n' := by
    intro h; exact hsp (by simp [pyIsspace, h])
  have hpos := posAfter_characterization pre
  have htn : tnext ⟨c :: rest, (posAfter pre).1, (posAfter pre).2⟩ =
      some (c, ⟨rest, (posAfter pre).1, (posAfter pre).2 + 1⟩) := by
    simp [tnext, hnl]
  rcases hst with h | h
  · subst h
    rw [parseVdfF, htn]
    simp only [if_neg hsp, if_neg hq, if_neg (hk rfl)]
    rw [hpos]
    simp only [Except.error.injEq, ParseError.mk.injEq]
    refine ⟨trivial, by ring_nf, by simp⟩
  · subst h
    rw [parseVdfF, htn]
    simp only [if_neg hsp, if_neg hq, if_neg (hv rfl)]
    rw [hpos]
    simp only [Except.error.injEq, ParseError.mk.injEq]
    refine ⟨trivial, by ring_nf, by simp⟩

/-- Witness for `c8_error_position`: the offending `x` on line 2 of `"\nx"`. -/
theorem c8_error_position_witness :
    (¬ pyIsspace 'x' ∧ 'x' ≠ qc) ∧
      parseVdfF 1 ⟨['x'], 2, 0⟩ false .waitKey [] [] [] =
        .error ⟨2, 1, .expectedKey 'x'⟩ := by
  refine ⟨by decide, ?_⟩
  have h := c8_error_position 0 ['\n'] [] 'x' false [] [] [] .waitKey
    (Or.inl rfl) (by decide) (by decide) (fun _ => by decide) (fun h => by cases h)
  exact h

/-! ## Path normalization lemmas -/

namespace Posix

/-- The double-dot component. -/
def dd : PyStr := ['.', '.']

/-- A component that `normpath` neither drops nor treats specially. -/
def NormalComp (c : PyStr) : Prop := c ≠ [] ∧ c ≠ ['.'] ∧ c ≠ dd

theorem modifyHead_append {α : Type} (f : α → α) (l m : List α)
    (h : l ≠ []) : (l ++ m).modifyHead f = l.modifyHead f ++ m := by
  cases l with
  | nil => exact absurd rfl h
  | cons x xs => rfl

theorem splitOnP_append_sep {α : Type} (p : α → Bool) (s : α) (hs : p s)
    (a b : List α) :
    (a ++ s :: b).splitOnP p = a.splitOnP p ++ b.splitOnP p := by
  induction a with
  | nil => simp [List.splitOnP_cons, hs, List.splitOnP_nil]
  | cons c a ih =>
    by_cases hc : p c
    · simp [List.splitOnP_cons, hc, ih]
    · simp only [List.cons_append, List.splitOnP_cons, hc, if_neg, ih,
        Bool.false_eq_true, if_false]
      exact modifyHead_append _ _ _ (List.splitOnP_ne_nil _ _)

theorem splitOn_append (a b : PyStr) :
    (a ++ sep :: b).splitOn sep = a.splitOn sep ++ b.splitOn sep := by
  simpa [List.splitOn] using
    splitOnP_append_sep (· == sep) sep (by simp) a b

theorem splitOn_cons_sep (b : PyStr) :
    (sep :: b).splitOn sep = [] :: b.splitOn sep := by
  simpa using splitOn_append [] b

theorem splitOnP_pieces {α : Type} (p : α → Bool) (l : List α) :
    ∀ x ∈ l.splitOnP p, ∀ e ∈ x, ¬ p e := by
  induction l with
  | nil =>
    intro x hx e he
    rw [List.splitOnP_nil, List.mem_singleton] at hx
    subst hx; cases he
  | cons c l ih =>
    intro x hx e he
    rw [List.splitOnP_cons] at hx
    by_cases hc : p c
    · rw [if_pos hc, List.mem_cons] at hx
      rcases hx with h | h
      · subst h; cases he
      · exact ih x h e he
    · rw [if_neg hc] at hx
      obtain ⟨y, ys, hy⟩ := List.exists_cons_of_ne_nil (List.splitOnP_ne_nil p l)
      rw [hy, List.modifyHead_cons, List.mem_cons] at hx
      rcases hx with h | h
      · subst h
        rcases List.mem_cons.1 he with h | h
        · subst h; exact hc
        · exact ih y (hy ▸ List.mem_cons_self y ys) e h
      · exact ih x (hy ▸ List.mem_cons_of_mem y h) e he

theorem splitOn_sep_not_mem (l : PyStr) :
    ∀ x ∈ l.splitOn sep, sep ∉ x := by
  intro x hx hmem
  have := splitOnP_pieces (· == sep) l x (by simpa [List.splitOn] using hx) sep hmem
  simp at this

theorem normStep_skip (s : Nat) (acc : List PyStr) {c : PyStr}
    (hc : c = [] ∨ c = ['.']) : normStep s acc c = acc := by
  rw [normStep, if_pos hc]

theorem normStep_normal (s : Nat) (acc : List PyStr) {c : PyStr}
    (hc : NormalComp c) : normStep s acc c = acc ++ [c] := by
  rw [normStep, if_neg, if_pos]
  · exact Or.inl hc.2.2
  · rintro (h | h)
    · exact hc.1 h
    · exact hc.2.1 h

theorem foldl_normStep_normal (s : Nat) (acc : List PyStr) (ys : List PyStr)
    (hys : ∀ y ∈ ys, NormalComp y) :
    ys.foldl (normStep s) acc = acc ++ ys := by
  induction ys generalizing acc with
  | nil => simp
  | cons y ys ih =>
    rw [List.foldl_cons, normStep_normal s acc (hys y (List.mem_cons_self y ys)),
      ih _ (fun z hz => hys z (List.mem_cons_of_mem y hz))]
    simp

theorem normStep_dd_pop (acc : List PyStr)
    (hacc : ∀ a ∈ acc, a ≠ dd) : normStep 1 acc dd = acc.dropLast := by
  rw [normStep, if_neg, if_neg]
  · cases acc with
    | nil => simp
    | cons a l => rw [if_pos (by simp)]
  · rintro (h | ⟨h, -⟩ | ⟨hne, hlast⟩)
    · exact h rfl
    · exact absurd h (by norm_num)
    · exact hacc _ (List.mem_of_getLast?_eq_some hlast) rfl
  · rintro (h | h) <;> simp [dd] at h

theorem foldl_normStep_replicate_dd (m : Nat) (acc : List PyStr)
    (hacc : ∀ a ∈ acc, a ≠ dd) :
    (List.replicate m dd).foldl (normStep 1) acc = acc.take (acc.length - m) := by
  induction m generalizing acc with
  | zero => simp
  | succ m ih =>
    rw [List.replicate_succ, List.foldl_cons, normStep_dd_pop acc hacc,
      ih _ (fun a ha => hacc a (List.dropLast_subset _ ha))]
    rw [List.dropLast_eq_take, List.take_take, List.length_take]
    congr 1
    omega

/-- Every component accumulated by the `normpath` fold on an absolute path is
normal and separator-free, provided the input components are separator-free. -/
theorem foldl_normStep_clean (xs : List PyStr) (acc : List PyStr)
    (hacc : ∀ a ∈ acc, NormalComp a ∧ sep ∉ a)
    (hxs : ∀ x ∈ xs, sep ∉ x) :
    ∀ a ∈ xs.foldl (normStep 1) acc, NormalComp a ∧ sep ∉ a := by
  induction xs generalizing acc with
  | nil => exact hacc
  | cons x xs ih =>
    rw [List.foldl_cons]
    refine ih _ ?_ (fun z hz => hxs z (List.mem_cons_of_mem x hz))
    by_cases h0 : x = [] ∨ x = ['.']
    · rw [normStep_skip _ _ h0]; exact hacc
    · push_neg at h0
      by_cases hdd : x = dd
      · subst hdd
        rw [normStep_dd_pop acc (fun a ha => (hacc a ha).1.2.2)]
        exact fun a ha => hacc a (List.dropLast_subset _ ha)
      · rw [normStep_normal _ _ ⟨h0.1, h0.2, hdd⟩]
        intro a ha
        rcases List.mem_append.1 ha with h | h
        · exact hacc a h
        · rw [List.mem_singleton] at h
          subst h
          exact ⟨⟨h0.1, h0.2, hdd⟩, hxs a (List.mem_cons_self _ _)⟩

theorem cpl_le_left (a b : List PyStr) : commonPrefixLen a b ≤ a.length := by
  induction a generalizing b with
  | nil => simp [commonPrefixLen]
  | cons x xs ih =>
    cases b with
    | nil => simp [commonPrefixLen]
    | cons y ys =>
      rw [commonPrefixLen]
      split
      · simpa using ih ys
      · simp

theorem cpl_le_right (a b : List PyStr) : commonPrefixLen a b ≤ b.length := by
  induction a generalizing b with
  | nil => simp [commonPrefixLen]
  | cons x xs ih =>
    cases b with
    | nil => simp [commonPrefixLen]
    | cons y ys =>
      rw [commonPrefixLen]
      split
      · simpa using ih ys
      · simp

theorem take_cpl (a b : List PyStr) :
    a.take (commonPrefixLen a b) = b.take (commonPrefixLen a b) := by
  induction a generalizing b with
  | nil => simp [commonPrefixLen]
  | cons x xs ih =>
    cases b with
    | nil => simp [commonPrefixLen]
    | cons y ys =>
      rw [commonPrefixLen]
      split
      · next h => subst h; rw [List.take_succ_cons, List.take_succ_cons, ih ys]
      · simp

theorem pyEndsWith_singleton (a : PyStr) (x : Char) :
    pyEndsWith a [x] = true ↔ a.getLast? = some x := by
  rw [pyEndsWith, List.isSuffixOf_iff_suffix]
  constructor
  · rintro ⟨t, rfl⟩
    exact List.getLast?_concat t
  · intro h
    obtain ⟨ys, rfl⟩ := List.getLast?_eq_some_iff.1 h
    exact ⟨ys, rfl⟩

theorem pyStartsWith_singleton (a : PyStr) (x : Char) :
    pyStartsWith a [x] = true ↔ ∃ t, a = x :: t := by
  rw [pyStartsWith, List.isPrefixOf_iff_prefix]
  constructor
  · rintro ⟨t, rfl⟩
    exact ⟨t, rfl⟩
  · rintro ⟨t, rfl⟩
    exact ⟨t, rfl⟩

theorem intercalate_cons_of_ne_nil (x : Char) (a : PyStr) (l : List PyStr)
    (hl : l ≠ []) :
    [x].intercalate (a :: l) = a ++ x :: [x].intercalate l := by
  cases l with
  | nil => exact absurd rfl hl
  | cons b t =>
    rw [List.intercalate, List.intercalate, List.intersperse_cons_cons]
    simp

theorem intercalate_singleton_str (x : Char) (a : PyStr) :
    [x].intercalate [a] = a := by
  rw [List.intercalate]
  simp

/-- The head structure of `intercalate` over nonempty components. -/
theorem intercalate_ne_nil (x : Char) (l : List PyStr) (hl : l ≠ [])
    (h : ∀ e ∈ l, e ≠ []) : [x].intercalate l ≠ [] := by
  cases l with
  | nil => exact absurd rfl hl
  | cons a t =>
    cases t with
    | nil =>
      rw [intercalate_singleton_str]
      exact h a (List.mem_cons_self _ _)
    | cons b t2 =>
      rw [intercalate_cons_of_ne_nil x a _ (by simp)]
      intro hcontra
      rcases List.append_eq_nil.1 hcontra with ⟨h1, -⟩
      exact h a (List.mem_cons_self _ _) h1

/-- The first character of `intercalate` over nonempty separator-free
components is the first character of the first component. -/
theorem intercalate_head (x : Char) (a : PyStr) (l : List PyStr) (ha : a ≠ []) :
    ([x].intercalate (a :: l)).head? = a.head? := by
  cases l with
  | nil => rw [intercalate_singleton_str]
  | cons b t =>
    rw [intercalate_cons_of_ne_nil x a _ (by simp)]
    cases a with
    | nil => exact absurd rfl ha
    | cons c cs => rfl

/-- The last character of `intercalate` over nonempty separator-free
components is in some component. -/
theorem intercalate_getLast_mem (x : Char) (l : List PyStr) (hl : l ≠ [])
    (h : ∀ e ∈ l, e ≠ []) :
    ∃ e ∈ l, ([x].intercalate l).getLast? = e.getLast? := by
  induction l with
  | nil => exact absurd rfl hl
  | cons a t ih =>
    cases t with
    | nil =>
      exact ⟨a, List.mem_cons_self _ _, by rw [intercalate_singleton_str]⟩
    | cons b t2 =>
      obtain ⟨e, he, heq⟩ := ih (by simp)
        (fun z hz => h z (List.mem_cons_of_mem a hz))
      refine ⟨e, List.mem_cons_of_mem a he, ?_⟩
      rw [intercalate_cons_of_ne_nil x a _ (by simp), List.getLast?_append]
      have hne : [x].intercalate (b :: t2) ≠ [] :=
        intercalate_ne_nil x _ (by simp)
          (fun z hz => h z (List.mem_cons_of_mem a hz))
      have : (x :: [x].intercalate (b :: t2)).getLast? =
          ([x].intercalate (b :: t2)).getLast? := by
        rw [List.getLast?_cons]
        cases hx : ([x].intercalate (b :: t2)).getLast? with
        | none => exact absurd (List.getLast?_eq_none_iff.1 hx) hne
        | some z => rfl
      rw [this, heq]
      cases hx : e.getLast? with
      | none =>
        exact absurd (List.getLast?_eq_none_iff.1 hx) (h e (List.mem_cons_of_mem a he))
      | some z => rfl

/-- Folding `posixpath.join` over nonempty separator-free components is
string interleaving with the separator. -/
theorem foldl_join_eq (l : List PyStr) (a : PyStr) (ha : a ≠ [])
    (hae : ¬ pyEndsWith a [sep] = true)
    (hl : ∀ e ∈ l, e ≠ [] ∧ sep ∉ e) :
    l.foldl join a = [sep].intercalate (a :: l) ∧
      l.foldl join a ≠ [] ∧ ¬ pyEndsWith (l.foldl join a) [sep] = true := by
  induction l generalizing a with
  | nil =>
    rw [List.foldl_nil, intercalate_singleton_str]
    exact ⟨rfl, ha, hae⟩
  | cons e t ih =>
    have he := hl e (List.mem_cons_self _ _)
    have hjoin : join a e = a ++ sep :: e := by
      rw [join, if_neg, if_neg]
      · rintro (h | h)
        · exact ha h
        · exact hae h
      · intro hc
        obtain ⟨u, hu⟩ := (pyStartsWith_singleton e sep).1 hc
        exact he.2 (hu ▸ List.mem_cons_self _ _)
    have hane : a ++ sep :: e ≠ [] := by simp
    have haend : ¬ pyEndsWith (a ++ sep :: e) [sep] = true := by
      rw [pyEndsWith_singleton]
      intro hcontra
      rw [List.getLast?_append] at hcontra
      cases e with
      | nil => exact he.1 rfl
      | cons c cs =>
        have hmem := List.mem_of_getLast?_eq_some
          (show (sep :: c :: cs).getLast? = some sep by
            cases h2 : (sep :: c :: cs).getLast? with
            | none => simp [List.getLast?_eq_none_iff] at h2
            | some z =>
              rw [h2] at hcontra
              simpa using hcontra)
        rcases List.mem_cons.1 hmem with h | h
        · have : (c :: cs).getLast? = some sep := by
            have h3 := hcontra
            rw [List.getLast?_cons_cons] at h3
            cases h4 : (c :: cs).getLast? with
            | none => simp [List.getLast?_eq_none_iff] at h4
            | some z => rw [h4] at h3; simpa using h3
          exact he.2 (List.mem_of_getLast?_eq_some this)
        · exact he.2 h
    rw [List.foldl_cons, hjoin]
    obtain ⟨h1, h2, h3⟩ := ih (a ++ sep :: e) hane haend
      (fun z hz => hl z (List.mem_cons_of_mem e hz))
    refine ⟨?_, h2, h3⟩
    rw [h1]
    cases t with
    | nil =>
      rw [intercalate_singleton_str,
        intercalate_cons_of_ne_nil sep a [e] (by simp),
        intercalate_singleton_str]
    | cons b t2 =>
      rw [intercalate_cons_of_ne_nil sep (a ++ sep :: e) (b :: t2) (by simp),
        intercalate_cons_of_ne_nil sep a (e :: b :: t2) (by simp),
        intercalate_cons_of_ne_nil sep e (b :: t2) (by simp)]
      simp

theorem joinList_eq_intercalate (l : List PyStr) (hl : l ≠ [])
    (h : ∀ e ∈ l, e ≠ [] ∧ sep ∉ e) :
    joinList l = [sep].intercalate l := by
  cases l with
  | nil => exact absurd rfl hl
  | cons a t =>
    have ha := h a (List.mem_cons_self _ _)
    have hae : ¬ pyEndsWith a [sep] = true := by
      rw [pyEndsWith_singleton]
      intro hc
      exact ha.2 (List.mem_of_getLast?_eq_some hc)
    exact (foldl_join_eq t a ha.1 hae
      (fun z hz => h z (List.mem_cons_of_mem a hz))).1

/-- Canonical absolute root: starts with exactly one separator and is a
fixed point of `normpath` (as `os.path.abspath` outputs are). -/
def CanonicalRoot (root : PyStr) : Prop :=
  pyStartsWith root [sep] = true ∧ ¬ pyStartsWith root [sep, sep] = true ∧
    normpath root = root

/-- Component resolution of an absolute path. -/
def resolveA (p : PyStr) : List PyStr := (p.splitOn sep).foldl (normStep 1) []

/-- The nonempty components of a path (the `start_list`/`path_list` of
`relpath`). -/
def filteredComps (p : PyStr) : List PyStr := (p.splitOn sep).filter (· ≠ [])

theorem normStep_eq_one (s : Nat) (hs : s ≠ 0) (acc : List PyStr) (c : PyStr) :
    normStep s acc c = normStep 1 acc c := by
  simp only [normStep, hs, Nat.one_ne_zero, false_and, false_or]

theorem initialSlashes_ne_zero (p : PyStr) (h1 : pyStartsWith p [sep] = true) :
    initialSlashes p ≠ 0 := by
  rw [initialSlashes, if_pos h1]
  split <;> simp

theorem resolveA_clean (p : PyStr) :
    ∀ a ∈ resolveA p, NormalComp a ∧ sep ∉ a :=
  foldl_normStep_clean (p.splitOn sep) [] (by simp) (splitOn_sep_not_mem p)

/-- `normpath` of an absolute path: the preserved slashes followed by the
resolved components interleaved with separators. -/
theorem normpath_abs (p : PyStr) (h1 : pyStartsWith p [sep] = true) :
    normpath p =
      List.replicate (initialSlashes p) sep ++ [sep].intercalate (resolveA p) := by
  obtain ⟨t, ht⟩ := (pyStartsWith_singleton p sep).1 h1
  have hne : p ≠ [] := by rw [ht]; simp
  have hs := initialSlashes_ne_zero p h1
  have hfold : (p.splitOn sep).foldl (normStep (initialSlashes p)) [] = resolveA p := by
    rw [resolveA]
    congr 1
    funext acc c
    exact normStep_eq_one _ hs acc c
  have hjne : List.replicate (initialSlashes p) sep ++
      [sep].intercalate (resolveA p) ≠ [] := by
    intro hcontra
    rcases List.append_eq_nil.1 hcontra with ⟨hl, -⟩
    rw [List.replicate_eq_nil_iff] at hl
    exact hs hl
  simp only [normpath, if_neg hne, hfold, if_neg hjne]

/-- Splitting a path of the form `"/"*s ++ X` prepends `s` empty components. -/
theorem splitOn_replicate_sep (s : Nat) (X : PyStr) :
    (List.replicate s sep ++ X).splitOn sep =
      List.replicate s [] ++ X.splitOn sep := by
  induction s with
  | zero => simp
  | succ s ih =>
    rw [List.replicate_succ, List.cons_append, splitOn_cons_sep, ih,
      List.replicate_succ, List.cons_append]

/-- For an absolute path, the nonempty components of its `normpath` are
exactly its resolved components. -/
theorem filteredComps_normpath (p : PyStr) (h1 : pyStartsWith p [sep] = true) :
    filteredComps (normpath p) = resolveA p := by
  rw [normpath_abs p h1, filteredComps, splitOn_replicate_sep,
    List.filter_append]
  have hrep : (List.replicate (initialSlashes p) ([] : PyStr)).filter (· ≠ []) = [] := by
    rw [List.filter_eq_nil_iff]
    intro a ha
    rw [List.eq_of_mem_replicate ha]
    simp
  rw [hrep, List.nil_append]
  cases hres : resolveA p with
  | nil =>
    show (([sep].intercalate []).splitOn sep).filter (· ≠ []) = []
    rw [show [sep].intercalate [] = ([] : PyStr) from rfl]
    rfl
  | cons a t =>
    have hclean := resolveA_clean p
    rw [hres] at hclean
    rw [List.splitOn_intercalate _ sep
      (fun l hl => (hclean l hl).2) (by simp)]
    rw [List.filter_eq_self]
    intro a2 ha2
    simpa using (hclean a2 ha2).1.1

/-- Joining anything onto an absolute path yields an absolute path. -/
theorem join_abs (root y : PyStr) (h : pyStartsWith root [sep] = true) :
    pyStartsWith (join root y) [sep] = true := by
  obtain ⟨t, ht⟩ := (pyStartsWith_singleton root sep).1 h
  rw [join]
  split
  · assumption
  · split
    · rw [ht]
      exact (pyStartsWith_singleton _ sep).2 ⟨t ++ y, by simp⟩
    · rw [ht]
      exact (pyStartsWith_singleton _ sep).2 ⟨t ++ sep :: y, by simp⟩

theorem getLast?_cons_of_ne_nil {α : Type} (a : α) (l : List α) (h : l ≠ []) :
    (a :: l).getLast? = l.getLast? := by
  cases l with
  | nil => exact absurd rfl h
  | cons b t => exact List.getLast?_cons_cons

/-- A canonical root is either the bare root directory or does not end with
a separator. -/
theorem canonical_root_end (root : PyStr) (hc : CanonicalRoot root) :
    root = [sep] ∨ ¬ pyEndsWith root [sep] = true := by
  have hshape := hc.2.2
  rw [normpath_abs root hc.1] at hshape
  have hs1 : initialSlashes root = 1 := by
    rw [initialSlashes, if_pos hc.1, if_neg]
    rintro ⟨h, -⟩
    exact hc.2.1 h
  rw [hs1] at hshape
  cases hres : resolveA root with
  | nil =>
    left
    rw [hres] at hshape
    rw [← hshape]
    rfl
  | cons a t =>
    right
    rw [hres] at hshape
    have hclean := resolveA_clean root
    rw [hres] at hclean
    rw [pyEndsWith_singleton]
    intro hlast
    obtain ⟨e, he, heq⟩ := intercalate_getLast_mem sep (a :: t) (by simp)
      (fun z hz => (hclean z hz).1.1)
    have hine : [sep].intercalate (a :: t) ≠ [] :=
      intercalate_ne_nil sep _ (by simp) (fun z hz => (hclean z hz).1.1)
    rw [← hshape] at hlast
    rw [show List.replicate 1 sep ++ [sep].intercalate (a :: t) =
      sep :: [sep].intercalate (a :: t) by simp] at hlast
    rw [getLast?_cons_of_ne_nil _ _ hine, heq] at hlast
    exact (hclean e he).2 (List.mem_of_getLast?_eq_some hlast)

/-- A canonical root joined with a relative path never starts with a double
separator. -/
theorem join_not_double_sep (root y : PyStr) (hc : CanonicalRoot root)
    (hy : ¬ pyStartsWith y [sep] = true) :
    ¬ pyStartsWith (join root y) [sep, sep] = true := by
  rcases canonical_root_end root hc with hr | hr
  · subst hr
    rw [join, if_neg hy, if_pos (Or.inr (by rw [pyEndsWith_singleton]; rfl))]
    intro hcontra
    obtain ⟨u, hu⟩ := List.isPrefixOf_iff_prefix.1 hcontra
    rw [List.singleton_append] at hu
    injection hu with h1 h2
    exact hy ((pyStartsWith_singleton y sep).2 ⟨u, h2.symm⟩)
  · obtain ⟨t, ht⟩ := (pyStartsWith_singleton root sep).1 hc.1
    have hjoin : join root y = root ++ sep :: y := by
      rw [join, if_neg hy, if_neg]
      rintro (h | h)
      · rw [h] at hc
        exact absurd hc.1 (by decide)
      · exact hr h
    rw [hjoin, ht]
    cases t with
    | nil =>
      exact absurd ((pyEndsWith_singleton [sep] sep).2 rfl) (ht ▸ hr)
    | cons c cs =>
      intro hcontra
      obtain ⟨u, hu⟩ := List.isPrefixOf_iff_prefix.1 hcontra
      rw [List.cons_append, List.cons_append] at hu
      injection hu with h1 h2
      injection h2 with h3 h4
      apply hc.2.1
      rw [pyStartsWith]
      apply List.isPrefixOf_iff_prefix.2
      exact ⟨cs, by rw [ht, ← h3]; rfl⟩

theorem normStep_zero_dd (j : Nat) :
    normStep 0 (List.replicate j dd) dd = List.replicate (j + 1) dd := by
  have h1 : ¬ (dd = [] ∨ dd = ['.']) := by decide
  have h2 : dd ≠ ['.', '.'] ∨ ((0 : Nat) = 0 ∧ List.replicate j dd = []) ∨
      (List.replicate j dd ≠ [] ∧ (List.replicate j dd).getLast? = some ['.', '.']) := by
    cases j with
    | zero => exact Or.inr (Or.inl ⟨rfl, rfl⟩)
    | succ j =>
      refine Or.inr (Or.inr ⟨by simp, ?_⟩)
      rw [List.replicate_succ']
      exact List.getLast?_concat _
  rw [normStep, if_neg h1, if_pos h2, ← List.replicate_succ']

theorem foldl_normStep_zero_replicate (m j : Nat) :
    (List.replicate m dd).foldl (normStep 0) (List.replicate j dd) =
      List.replicate (j + m) dd := by
  induction m generalizing j with
  | zero => simp
  | succ m ih =>
    rw [List.replicate_succ, List.foldl_cons, normStep_zero_dd, ih]
    congr 1
    omega

theorem intercalate_not_abs (L : List PyStr) (hne : L ≠ [])
    (hL : ∀ e ∈ L, e ≠ [] ∧ sep ∉ e) :
    ¬ pyStartsWith ([sep].intercalate L) [sep] = true := by
  intro hcontra
  obtain ⟨t, ht⟩ := (pyStartsWith_singleton _ sep).1 hcontra
  obtain ⟨e0, L2, hL2⟩ := List.exists_cons_of_ne_nil hne
  have he0 := hL e0 (hL2 ▸ List.mem_cons_self _ _)
  have hh : ([sep].intercalate L).head? = e0.head? := by
    rw [hL2]
    exact intercalate_head sep e0 L2 he0.1
  rw [ht] at hh
  cases e0 with
  | nil => exact he0.1 rfl
  | cons c cs =>
    have : c = sep := by
      rw [List.head?_cons, List.head?_cons] at hh
      exact (Option.some.inj hh).symm
    exact he0.2 (this ▸ List.mem_cons_self _ _)

/-- `normpath` is the identity on canonical relative paths: a run of `..`
components followed by normal separator-free components. -/
theorem normpath_relative (m : Nat) (ys : List PyStr)
    (hys : ∀ y ∈ ys, NormalComp y ∧ sep ∉ y)
    (hne : List.replicate m dd ++ ys ≠ []) :
    normpath ([sep].intercalate (List.replicate m dd ++ ys)) =
      [sep].intercalate (List.replicate m dd ++ ys) := by
  have hLel : ∀ e ∈ List.replicate m dd ++ ys, e ≠ [] ∧ sep ∉ e := by
    intro e he
    rcases List.mem_append.1 he with h | h
    · rw [List.eq_of_mem_replicate h]
      exact ⟨by simp [dd], by decide⟩
    · exact ⟨(hys e h).1.1, (hys e h).2⟩
  have hXne : [sep].intercalate (List.replicate m dd ++ ys) ≠ [] :=
    intercalate_ne_nil sep _ hne (fun e he => (hLel e he).1)
  have hXrel := intercalate_not_abs _ hne hLel
  have hslash : initialSlashes ([sep].intercalate (List.replicate m dd ++ ys)) = 0 := by
    rw [initialSlashes, if_neg hXrel]
  have hcomps : ([sep].intercalate (List.replicate m dd ++ ys)).splitOn sep =
      List.replicate m dd ++ ys :=
    List.splitOn_intercalate _ sep (fun l hl => (hLel l hl).2) hne
  have hfold : (List.replicate m dd ++ ys).foldl (normStep 0) [] =
      List.replicate m dd ++ ys := by
    rw [List.foldl_append]
    have h1 : (List.replicate m dd).foldl (normStep 0) [] = List.replicate m dd := by
      simpa using foldl_normStep_zero_replicate m 0
    rw [h1]
    exact foldl_normStep_normal 0 _ ys (fun y hy => (hys y hy).1)
  simp only [normpath, if_neg hXne, hslash, hcomps, hfold, List.replicate,
    List.nil_append, if_neg hXne]

/-- `join` of a canonical root (not the bare `/`) and a relative path is
plain concatenation with a separator. -/
theorem join_rel_eq (root y : PyStr) (hc : CanonicalRoot root)
    (hy : ¬ pyStartsWith y [sep] = true) (hr : ¬ pyEndsWith root [sep] = true) :
    join root y = root ++ sep :: y := by
  rw [join, if_neg hy, if_neg]
  rintro (h | h)
  · rw [h] at hc
    exact absurd hc.1 (by decide)
  · exact hr h

theorem resolveA_join (root y : PyStr) (hc : CanonicalRoot root)
    (hy : ¬ pyStartsWith y [sep] = true) :
    resolveA (join root y) =
      (y.splitOn sep).foldl (normStep 1) (filteredComps root) := by
  have hfc : filteredComps root = resolveA root := by
    have h := filteredComps_normpath root hc.1
    rw [hc.2.2] at h
    exact h
  rcases canonical_root_end root hc with hr | hr
  · have hjoin : join root y = sep :: y := by
      rw [hr, join, if_neg hy,
        if_pos (Or.inr (by rw [pyEndsWith_singleton]; rfl))]
      rfl
    rw [hjoin, resolveA, splitOn_cons_sep, List.foldl_cons,
      normStep_skip 1 [] (Or.inl rfl), hr]
    rw [show filteredComps [sep] = [] from rfl]
  · rw [join_rel_eq root y hc hy hr, resolveA, splitOn_append,
      List.foldl_append, hfc]
    rfl

/-- The `path_list` that `relpath` computes for `join root y`, `y` relative. -/
theorem pathList_join_rel (cwd root y : PyStr) (hc : CanonicalRoot root)
    (hy : ¬ pyStartsWith y [sep] = true) :
    filteredComps (abspath cwd (join root y)) =
      (y.splitOn sep).foldl (normStep 1) (filteredComps root) := by
  have habs := join_abs root y hc.1
  rw [abspath, if_pos (show isabs (join root y) = true from habs),
    filteredComps_normpath _ habs]
  exact resolveA_join root y hc hy

theorem pc_eq (cwd root p : PyStr) (hc : CanonicalRoot root) :
    filteredComps (abspath cwd (join root p)) = resolveA (join root p) := by
  have habs := join_abs root p hc.1
  rw [abspath, if_pos (show isabs (join root p) = true from habs),
    filteredComps_normpath _ habs]

theorem rc_eq (cwd root : PyStr) (hc : CanonicalRoot root) :
    filteredComps (abspath cwd root) = filteredComps root := by
  rw [abspath, if_pos (show isabs root = true from hc.1), hc.2.2]

/-- The relative component list `relpath` builds for `join root p` against
`root`. -/
def relCompList (cwd root p : PyStr) : List PyStr :=
  List.replicate ((filteredComps (abspath cwd root)).length -
      commonPrefixLen (filteredComps (abspath cwd root))
        (filteredComps (abspath cwd (join root p)))) dd ++
    (filteredComps (abspath cwd (join root p))).drop
      (commonPrefixLen (filteredComps (abspath cwd root))
        (filteredComps (abspath cwd (join root p))))

theorem relpath_eq (cwd root p : PyStr) :
    relpath cwd (join root p) root =
      if relCompList cwd root p = [] then ['.']
      else joinList (relCompList cwd root p) := rfl

theorem relCompList_elems (cwd root p : PyStr) (hc : CanonicalRoot root) :
    ∀ e ∈ relCompList cwd root p, e ≠ [] ∧ sep ∉ e := by
  intro e he
  rcases List.mem_append.1 he with h | h
  · rw [List.eq_of_mem_replicate h]
    exact ⟨by simp [dd], by decide⟩
  · have h2 := List.mem_of_mem_drop h
    rw [pc_eq cwd root p hc] at h2
    have h3 := resolveA_clean (join root p) e h2
    exact ⟨h3.1.1, h3.2⟩

theorem normpath_relpath_join (cwd root p : PyStr) (hc : CanonicalRoot root) :
    normpath (relpath cwd (join root p) root) =
      relpath cwd (join root p) root := by
  rw [relpath_eq]
  by_cases hrl : relCompList cwd root p = []
  · rw [if_pos hrl]
    rfl
  · rw [if_neg hrl,
      joinList_eq_intercalate _ hrl (relCompList_elems cwd root p hc)]
    rw [relCompList] at hrl ⊢
    apply normpath_relative
    · intro y hy
      have h2 := List.mem_of_mem_drop hy
      rw [pc_eq cwd root p hc] at h2
      have h3 := resolveA_clean (join root p) y h2
      exact ⟨h3.1, h3.2⟩
    · exact hrl

/-- `simNormpath` never applies a final nontrivial `normpath`: the `relpath`
result is already normalized. -/
theorem simNormpath_eq_relpath (cwd root p : PyStr) (hc : CanonicalRoot root) :
    simNormpath cwd root p = relpath cwd (join root p) root :=
  normpath_relpath_join cwd root p hc

/-- The relpath result is a relative path. -/
theorem relpath_join_not_abs (cwd root p : PyStr) (hc : CanonicalRoot root) :
    ¬ pyStartsWith (relpath cwd (join root p) root) [sep] = true := by
  rw [relpath_eq]
  by_cases hrl : relCompList cwd root p = []
  · rw [if_pos hrl]
    decide
  · rw [if_neg hrl,
      joinList_eq_intercalate _ hrl (relCompList_elems cwd root p hc)]
    exact intercalate_not_abs _ hrl (relCompList_elems cwd root p hc)

/-- Re-joining the relpath result onto the root resolves back to the same
absolute component list: the crux of idempotence. -/
theorem pathList_stable (cwd root p : PyStr) (hc : CanonicalRoot root) :
    filteredComps (abspath cwd (join root (relpath cwd (join root p) root))) =
      filteredComps (abspath cwd (join root p)) := by
  have hrc_clean : ∀ a ∈ filteredComps root, NormalComp a ∧ sep ∉ a := by
    have h := filteredComps_normpath root hc.1
    rw [hc.2.2] at h
    rw [h]
    exact resolveA_clean root
  rw [pathList_join_rel cwd root _ hc (relpath_join_not_abs cwd root p hc),
    relpath_eq]
  by_cases hrl : relCompList cwd root p = []
  · rw [if_pos hrl]
    rw [relCompList] at hrl
    rcases List.append_eq_nil.1 hrl with ⟨h1, h2⟩
    rw [List.replicate_eq_nil_iff] at h1
    rw [List.drop_eq_nil_iff] at h2
    have hle1 := cpl_le_left (filteredComps (abspath cwd root))
      (filteredComps (abspath cwd (join root p)))
    have hle2 := cpl_le_right (filteredComps (abspath cwd root))
      (filteredComps (abspath cwd (join root p)))
    have hi1 : commonPrefixLen (filteredComps (abspath cwd root))
        (filteredComps (abspath cwd (join root p))) =
        (filteredComps (abspath cwd root)).length := by omega
    have ht := take_cpl (filteredComps (abspath cwd root))
      (filteredComps (abspath cwd (join root p)))
    rw [hi1, List.take_length] at ht
    have heq : filteredComps (abspath cwd root) =
        filteredComps (abspath cwd (join root p)) :=
      ht.trans (List.take_of_length_le (by omega))
    rw [show (['.'] : PyStr).splitOn sep = [['.']] from rfl, List.foldl_cons,
      normStep_skip 1 _ (Or.inr rfl), List.foldl_nil]
    rw [← rc_eq cwd root hc]
    exact heq
  · rw [if_neg hrl,
      joinList_eq_intercalate _ hrl (relCompList_elems cwd root p hc),
      List.splitOn_intercalate _ sep
        (fun l hl => (relCompList_elems cwd root p hc l hl).2) hrl]
    rw [relCompList, rc_eq cwd root hc, List.foldl_append]
    rw [foldl_normStep_replicate_dd _ _ (fun a ha => (hrc_clean a ha).1.2.2)]
    have hle1 := cpl_le_left (filteredComps root)
      (filteredComps (abspath cwd (join root p)))
    have hsub : (filteredComps root).length -
        ((filteredComps root).length -
          commonPrefixLen (filteredComps root)
            (filteredComps (abspath cwd (join root p)))) =
        commonPrefixLen (filteredComps root)
          (filteredComps (abspath cwd (join root p))) := by omega
    rw [hsub]
    rw [foldl_normStep_normal 1 _ _ (by
      intro y hy
      have h2 := List.mem_of_mem_drop hy
      rw [pc_eq cwd root p hc] at h2
      exact (resolveA_clean (join root p) y h2).1)]
    rw [take_cpl (filteredComps root)
      (filteredComps (abspath cwd (join root p))), List.take_append_drop]

end Posix

/-- C9: with a canonical absolute root (as `os.path.abspath` produces in
`InstallSimulator.__init__`), the simulator's `normpath` is idempotent, and
joining a relative path onto the root yields the same key as the relative
path itself. -/
theorem c9_simNormpath_idem_and_collapse (cwd root : PyStr)
    (hc : Posix.CanonicalRoot root) (p q : PyStr)
    (_hq : ¬ Posix.isabs q = true) :
    simNormpath cwd root (simNormpath cwd root p) = simNormpath cwd root p ∧
      simNormpath cwd root (Posix.join root q) = simNormpath cwd root q := by
  constructor
  · have h1 := Posix.simNormpath_eq_relpath cwd root p hc
    rw [h1, simNormpath]
    have hstab : Posix.relCompList cwd root
        (Posix.relpath cwd (Posix.join root p) root) =
        Posix.relCompList cwd root p := by
      rw [Posix.relCompList, Posix.relCompList,
        Posix.pathList_stable cwd root p hc]
    have h2 : Posix.relpath cwd
        (Posix.join root (Posix.relpath cwd (Posix.join root p) root)) root =
        Posix.relpath cwd (Posix.join root p) root := by
      rw [Posix.relpath_eq cwd root (Posix.relpath cwd (Posix.join root p) root),
        hstab]
      exact (Posix.relpath_eq cwd root p).symm
    rw [h2, ← h1]
    exact h1 ▸ Posix.normpath_relpath_join cwd root p hc
  · have hjj : Posix.join root (Posix.join root q) = Posix.join root q := by
      rw [Posix.join]
      rw [if_pos (Posix.join_abs root q hc.1)]
    rw [simNormpath, simNormpath, hjj]

/-- Witness for `c9_simNormpath_idem_and_collapse` at root `/r`,
`p = "x/../y"` and `q = "a/b"`. -/
theorem c9_simNormpath_witness :
    Posix.CanonicalRoot ("/r".data) ∧ ¬ Posix.isabs ("a/b".data) = true ∧
      (simNormpath ("/w".data) ("/r".data)
          (simNormpath ("/w".data) ("/r".data) ("x/../y".data)) =
        simNormpath ("/w".data) ("/r".data) ("x/../y".data) ∧
      simNormpath ("/w".data) ("/r".data)
          (Posix.join ("/r".data) ("a/b".data)) =
        simNormpath ("/w".data) ("/r".data) ("a/b".data)) :=
  ⟨⟨by decide, by decide, by decide⟩, by decide,
    c9_simNormpath_idem_and_collapse ("/w".data) ("/r".data)
      ⟨by decide, by decide, by decide⟩ ("x/../y".data) ("a/b".data)
      (by decide)⟩

/-! ## Filesystem model and the InstallSimulator -/

/-- The installer metadata document (`Installer.meta`): a version number and
a map from installed relative paths to fingerprint strings. -/
structure Meta where
  version : Nat
  files : List (PyStr × PyStr)
deriving Repr, DecidableEq

/-- File contents: raw bytes, or a JSON metadata document (so that
`json.load`/`json.dump` round-trips can be modelled without a JSON parser). -/
inductive FileVal where
  | bytes (content : PyStr)
  | jsonMeta (m : Meta)
deriving Repr, DecidableEq

/-- A filesystem entry: a regular file or a directory. -/
inductive FsEntry where
  | file (v : FileVal)
  | dir
deriving Repr, DecidableEq

/-- The real filesystem: an association list from canonical absolute paths
to entries (no symlinks; every OS access canonicalizes its argument). -/
abbrev Fs := List (PyStr × FsEntry)

/-- The kernel's canonical form of a path: `posixpath.abspath`, except that
a doubled leading slash (which `normpath` pedantically preserves) denotes
the same directory as a single slash on Linux. -/
def osCanon (cwd p : PyStr) : PyStr :=
  let a := Posix.abspath cwd p
  if pyStartsWith a [Posix.sep, Posix.sep] then a.drop 1 else a

/-- Resolve a path as the OS does (canonicalize, then look up). -/
def osStat (fs : Fs) (cwd p : PyStr) : Option FsEntry :=
  fs.lookup (osCanon cwd p)

/-- `os.path.exists`. -/
def osExists (fs : Fs) (cwd p : PyStr) : Bool := (osStat fs cwd p).isSome

/-- `os.path.isdir`. -/
def osIsdir (fs : Fs) (cwd p : PyStr) : Bool :=
  match osStat fs cwd p with
  | some .dir => true
  | _ => false

/-- `os.path.isfile`. -/
def osIsfile (fs : Fs) (cwd p : PyStr) : Bool :=
  match osStat fs cwd p with
  | some (.file _) => true
  | _ => false

/-- `os.listdir`: the names of the direct children of a directory, in
filesystem order. -/
def osListdir (fs : Fs) (cwd d : PyStr) : List PyStr :=
  let D := osCanon cwd d
  let pre := if D = [Posix.sep] then D else D ++ [Posix.sep]
  fs.filterMap (fun e =>
    let leaf := e.1.drop pre.length
    if pre.isPrefixOf e.1 ∧ leaf ≠ [] ∧ ¬ Posix.sep ∈ leaf then some leaf
    else none)

/-- Create or overwrite an entry at a canonical path. -/
def fsSet (fs : Fs) (p : PyStr) (e : FsEntry) : Fs :=
  if (fs.lookup p).isSome then
    fs.map (fun kv => if kv.1 = p then (p, e) else kv)
  else fs ++ [(p, e)]

/-- Write an entry at a path, canonicalizing as the OS does. -/
def osWrite (fs : Fs) (cwd p : PyStr) (e : FsEntry) : Fs :=
  fsSet fs (osCanon cwd p) e

/-- Remove the entry at a path, canonicalizing as the OS does. -/
def osRemovePath (fs : Fs) (cwd p : PyStr) : Fs :=
  fs.filter (fun kv => kv.1 ≠ osCanon cwd p)

/-- The ways the Python code can fail: a `RuntimeError` raised by the
simulator, an OS-level error from `os`/`shutil`/`filecmp`, or `die`
(which prints and exits). -/
inductive PyErr where
  | runtime (msg : PyStr)
  | osError
  | die
deriving Repr, DecidableEq

/-- A pending change value: `[M_DIR]` or `[M_FILE, src]` (a `None` value is
represented by `Option.none` at the use sites). -/
inductive Chg where
  | dir
  | file (src : PyStr)
deriving Repr, DecidableEq

/-- `LastUpdatedOrderedDict.__setitem__`: set a key and move it to the end. -/
def luodSet (m : List (PyStr × Option Chg)) (k : PyStr) (v : Option Chg) :
    List (PyStr × Option Chg) :=
  m.filter (fun e => e.1 ≠ k) ++ [(k, v)]

/-- `del d[key]` on the changes dict. -/
def luodDel (m : List (PyStr × Option Chg)) (k : PyStr) :
    List (PyStr × Option Chg) :=
  m.filter (fun e => e.1 ≠ k)

/-- `InstallSimulator`: a root directory and the ordered pending changes. -/
structure InstallSimulator where
  root : PyStr
  changes : List (PyStr × Option Chg)
deriving Repr, DecidableEq

/-- `InstallSimulator.reset`. -/
def InstallSimulator.reset (sim : InstallSimulator) : InstallSimulator :=
  { sim with changes := [] }

/-- `InstallSimulator.exists`. -/
def InstallSimulator.pexists (sim : InstallSimulator) (fs : Fs) (cwd : PyStr)
    (path : PyStr) : Bool :=
  let key := simNormpath cwd sim.root path
  match sim.changes.lookup key with
  | some none => false
  | some (some _) => true
  | none => osExists fs cwd (Posix.join sim.root key)

/-- `InstallSimulator.isdir`. -/
def InstallSimulator.isdir (sim : InstallSimulator) (fs : Fs) (cwd : PyStr)
    (path : PyStr) : Bool :=
  let key := simNormpath cwd sim.root path
  match sim.changes.lookup key with
  | some none => false
  | some (some .dir) => true
  | some (some (.file _)) => false
  | none => osIsdir fs cwd (Posix.join sim.root key)

/-- `InstallSimulator.isfile`. -/
def InstallSimulator.isfile (sim : InstallSimulator) (fs : Fs) (cwd : PyStr)
    (path : PyStr) : Bool :=
  let key := simNormpath cwd sim.root path
  match sim.changes.lookup key with
  | some none => false
  | some (some (.file _)) => true
  | some (some .dir) => false
  | none => osIsfile fs cwd (Posix.join sim.root key)

/-- `InstallSimulator.listdir`, translated faithfully: the on-disk loop
appends `key` (the queried path) rather than `leaf` for every surviving real
child. -/
def InstallSimulator.listdir (sim : InstallSimulator) (fs : Fs) (cwd : PyStr)
    (path : PyStr) : List PyStr :=
  let key := simNormpath cwd sim.root path
  let keyAndSep := key ++ [Posix.sep]
  let fullpath := Posix.join sim.root key
  let leaves1 : List PyStr :=
    if osIsdir fs cwd fullpath then
      (osListdir fs cwd fullpath).foldl (fun acc leaf =>
        if sim.pexists fs cwd (Posix.join key leaf) then acc ++ [key]
        else acc) []
    else []
  sim.changes.foldl (fun acc kv =>
    match kv.2 with
    | none => acc
    | some _ =>
      if pyStartsWith kv.1 keyAndSep then
        let kleaf := kv.1.drop keyAndSep.length
        if ¬ Posix.sep ∈ kleaf ∧ ¬ kleaf ∈ acc then acc ++ [kleaf] else acc
      else acc) leaves1

/-- `filecmp.cmp(a, b, shallow=False)`: `os.stat` both paths (raising if
either is missing), return `False` unless both are regular files, else
compare contents byte for byte. -/
def filecmpCmp (fs : Fs) (cwd a b : PyStr) : Except PyErr Bool :=
  match osStat fs cwd a, osStat fs cwd b with
  | some (.file x), some (.file y) => .ok (x = y)
  | some _, some _ => .ok false
  | _, _ => .error .osError

/-- `InstallSimulator.same_file`. -/
def InstallSimulator.same_file (sim : InstallSimulator) (fs : Fs)
    (cwd : PyStr) (src dst : PyStr) (real_only : Bool) : Except PyErr Bool :=
  let a := src
  let b := Posix.join sim.root dst
  let b2 : Option PyStr :=
    if ¬ real_only then
      match sim.changes.lookup (simNormpath cwd sim.root dst) with
      | some none => none
      | some (some (.file s)) => some s
      | some (some .dir) => none
      | none => some b
    else some b
  match b2 with
  | none => .ok false
  | some b3 =>
    if ¬ osExists fs cwd b3 then .ok false
    else filecmpCmp fs cwd a b3

/-- `InstallSimulator.makedir`. -/
def InstallSimulator.makedir (sim : InstallSimulator) (fs : Fs) (cwd : PyStr)
    (dst : PyStr) : Except PyErr InstallSimulator :=
  let fulldest := Posix.join sim.root dst
  let key := simNormpath cwd sim.root dst
  if sim.isdir fs cwd dst then .ok sim
  else if sim.pexists fs cwd dst then
    .error (.runtime ("path expected to be a directory: ".data ++ fulldest))
  else
    let changes1 := luodSet sim.changes key (some .dir)
    if osIsdir fs cwd fulldest then
      .ok { sim with changes := luodDel changes1 key }
    else .ok { sim with changes := changes1 }

/-- `InstallSimulator.makedirs`, fuelled (each recursion strictly shortens
the path, so `dst.length + 1` units always suffice). -/
def InstallSimulator.makedirsF (fs : Fs) (cwd : PyStr) :
    Nat → InstallSimulator → PyStr → Except PyErr InstallSimulator
  | 0, _, _ => .error .osError
  | fuel + 1, sim, dst =>
    let ht0 := Posix.psplit dst
    let ht := if ht0.2 = [] then Posix.psplit ht0.1 else ht0
    if ht.1 ≠ [] ∧ ht.2 ≠ [] then
      match InstallSimulator.makedirsF fs cwd fuel sim ht.1 with
      | .ok sim2 => sim2.makedir fs cwd dst
      | .error e => .error e
    else sim.makedir fs cwd dst

/-- `InstallSimulator.makedirs`. -/
def InstallSimulator.makedirs (sim : InstallSimulator) (fs : Fs) (cwd : PyStr)
    (dst : PyStr) : Except PyErr InstallSimulator :=
  InstallSimulator.makedirsF fs cwd (dst.length + 1) sim dst

/-- `InstallSimulator.rmdir`. -/
def InstallSimulator.rmdir (sim : InstallSimulator) (fs : Fs) (cwd : PyStr)
    (dst : PyStr) : Except PyErr InstallSimulator :=
  let fulldest := Posix.join sim.root dst
  let key := simNormpath cwd sim.root dst
  if ¬ sim.pexists fs cwd dst then .ok sim
  else if ¬ sim.isdir fs cwd dst then
    .error (.runtime ("path expected to be a directory: ".data ++ fulldest))
  else if sim.listdir fs cwd dst ≠ [] then
    .error (.runtime ("directory not empty: ".data ++ fulldest))
  else
    let changes1 := luodSet sim.changes key none
    if ¬ osExists fs cwd fulldest then
      .ok { sim with changes := luodDel changes1 key }
    else .ok { sim with changes := changes1 }

/-- `InstallSimulator.install_file`. -/
def InstallSimulator.install_file (sim : InstallSimulator) (fs : Fs)
    (cwd : PyStr) (src dst : PyStr) : Except PyErr InstallSimulator :=
  let head := (Posix.psplit dst).1
  match (if head ≠ [] then sim.makedirs fs cwd head else .ok sim) with
  | .error e => .error e
  | .ok simA =>
    let fulldest := Posix.join simA.root dst
    let key := simNormpath cwd simA.root dst
    if simA.isdir fs cwd dst then
      .error (.runtime ("path is expected to be a file: ".data ++ fulldest))
    else
      match simA.same_file fs cwd src dst false with
      | .error e => .error e
      | .ok true => .ok simA
      | .ok false =>
        let changes1 :=
          luodSet simA.changes key (some (.file (Posix.abspath cwd src)))
        let simB := { simA with changes := changes1 }
        match simB.same_file fs cwd src dst true with
        | .error e => .error e
        | .ok true => .ok { simB with changes := luodDel changes1 key }
        | .ok false => .ok simB

/-- `InstallSimulator.remove_file`. -/
def InstallSimulator.remove_file (sim : InstallSimulator) (fs : Fs)
    (cwd : PyStr) (dst : PyStr) : Except PyErr InstallSimulator :=
  let fulldest := Posix.join sim.root dst
  let key := simNormpath cwd sim.root dst
  if ¬ sim.pexists fs cwd dst then .ok sim
  else if ¬ sim.isfile fs cwd dst then
    .error (.runtime ("path expected to be a file: ".data ++ fulldest))
  else
    let changes1 := luodSet sim.changes key none
    if ¬ osExists fs cwd fulldest then
      .ok { sim with changes := luodDel changes1 key }
    else .ok { sim with changes := changes1 }

/-! ## The Installer -/

/-- The blacklist of files that may be overwritten but never deleted. -/
def BLACKLIST : List PyStr :=
  ["bin/bink2w64.dll".data, "bin/bink2w64_original.dll".data]

/-- `Installer.M_HASH_DIR`: the special hash recorded for directories. -/
def M_HASH_DIR : PyStr := "dir".data

/-- JSON rendering of a short string (keys and digests here never need
escaping). -/
def jsonStr (s : PyStr) : PyStr := qc :: s ++ [qc]

/-- `json.dump(meta, f, indent=2)`: the serialized metadata document.
Modelled from the CPython `json` module output format. -/
def metaDump (m : Meta) : PyStr :=
  let filesPart : PyStr :=
    match m.files with
    | [] => "\x7b\x7d".data
    | entries =>
      "\x7b\n    ".data ++
        (",\n    ".data).intercalate
          (entries.map (fun kv => jsonStr kv.1 ++ ": ".data ++ jsonStr kv.2)) ++
        "\n  \x7d".data
  "\x7b\n  ".data ++ jsonStr ("version".data) ++ ": ".data ++
    Nat.toDigits 10 m.version ++ ",\n  ".data ++ jsonStr ("files".data) ++
    ": ".data ++ filesPart ++ "\n\x7d".data

/-- `Installer.hash`: an algorithm-tagged content digest.  The SHA-1
computation over the bytes is modelled as an injective tagging of the
content. -/
def hashFile : FileVal → PyStr
  | .bytes c => "sha1:".data ++ c
  | .jsonMeta m => "sha1:".data ++ metaDump m

/-- `Installer.default_meta`. -/
def defaultMeta : Meta := ⟨0, []⟩

/-- The `unmodified` map built in `Installer.__init__`: every recorded
non-directory entry whose path is currently a file with the recorded
fingerprint. -/
def computeUnmodified (fs : Fs) (cwd root : PyStr)
    (files : List (PyStr × PyStr)) : List (PyStr × PyStr) :=
  files.foldl (fun acc kv =>
    if kv.2 = M_HASH_DIR then acc
    else
      match osStat fs cwd (Posix.join root kv.1) with
      | some (.file fv) =>
        if kv.2 = hashFile fv then acc ++ [(kv.1, kv.2)] else acc
      | _ => acc) []

/-- `Installer`: the target root, the simulator, the metafile path, the
loaded metadata and the precomputed unmodified map. -/
structure Installer where
  root : PyStr
  sim : InstallSimulator
  metapath : PyStr
  meta : Meta
  unmodified : List (PyStr × PyStr)
deriving Repr, DecidableEq

/-- `Installer.__init__` (with `die` surfacing as an error). -/
def mkInstaller (fs : Fs) (cwd root metafile : PyStr) :
    Except PyErr Installer :=
  let root2 := Posix.abspath cwd root
  let sim : InstallSimulator := ⟨Posix.abspath cwd root2, []⟩
  let metapath := Posix.join root2 metafile
  let loaded : Except PyErr Meta :=
    if osIsfile fs cwd metapath then
      match osStat fs cwd metapath with
      | some (.file (.jsonMeta m)) => .ok m
      | _ => .error .die
    else .ok defaultMeta
  match loaded with
  | .error e => .error e
  | .ok m =>
    if m.version ≠ 0 then .error .die
    else .ok ⟨root2, sim, metapath, m, computeUnmodified fs cwd root2 m.files⟩

/-- Stable insertion for a descending sort by length: `x` goes before the
first element strictly shorter than it. -/
def insertByLenDesc (x : PyStr) : List PyStr → List PyStr
  | [] => [x]
  | y :: ys =>
    if x.length < y.length then y :: insertByLenDesc x ys else x :: y :: ys

/-- `keys.sort(key=len, reverse=True)`: Python sorts are stable, and a
stable sort is uniquely determined by its comparator, so this insertion
sort computes exactly the CPython result. -/
def sortByLenDesc (l : List PyStr) : List PyStr := l.foldr insertByLenDesc []

/-- One iteration of `Installer.uninstall`'s loop over the sorted recorded
keys. -/
def uninstallStep (ins : Installer) (fs : Fs) (cwd : PyStr)
    (blacklistKeys : List PyStr) (sim : InstallSimulator) (k : PyStr) :
    Except PyErr InstallSimulator :=
  if k ∈ blacklistKeys then .ok sim
  else
    match ins.meta.files.lookup k with
    | some v =>
      if v = M_HASH_DIR then
        if sim.isdir fs cwd k ∧ sim.listdir fs cwd k = [] then
          sim.rmdir fs cwd k
        else .ok sim
      else
        if sim.isfile fs cwd k ∧ (ins.unmodified.lookup k).isSome then
          sim.remove_file fs cwd k
        else .ok sim
    | none => .ok sim

/-- `Installer.uninstall`: plan removal of recorded unmodified files and of
recorded empty directories, leaves first, skipping the blacklist. -/
def Installer.uninstall (ins : Installer) (fs : Fs) (cwd : PyStr) :
    Except PyErr Installer :=
  let blacklistKeys := BLACKLIST.map (fun k => simNormpath cwd ins.sim.root k)
  let keys := sortByLenDesc (ins.meta.files.map (fun kv => kv.1))
  match keys.foldlM (uninstallStep ins fs cwd blacklistKeys) ins.sim with
  | .error e => .error e
  | .ok sim => .ok { ins with sim := sim }

/-- `Installer.sim_label`: the label printed for one pending change. -/
def Installer.sim_label (ins : Installer) (fs : Fs) (cwd : PyStr) (k : PyStr)
    (v : Option Chg) : PyStr :=
  match v with
  | none =>
    if osIsdir fs cwd (Posix.join ins.root k) then "  [!] rmdir    ".data
    else "  [!] delete   ".data
  | some (.file _) =>
    if osIsfile fs cwd (Posix.join ins.root k) ∧
        (ins.unmodified.lookup k).isNone then
      " [!!] overwrite".data
    else "      install  ".data
  | some .dir => "      mkdir    ".data

/-- `Installer.summarize`: the returned flag, plus the label/key lines it
prints (the `In <root>` header is not part of the operation lines). -/
def Installer.summarize (ins : Installer) (fs : Fs) (cwd : PyStr) :
    Bool × List (PyStr × PyStr) :=
  if ins.sim.changes ≠ [] then
    (true,
      ins.sim.changes.map (fun kv => (ins.sim_label fs cwd kv.1 kv.2, kv.1)))
  else (false, [])

/-- What `Installer.commit` produces when it completes: the updated
installer and filesystem, the label/key lines printed inside the loop, the
operations applied in order, and every metadata document durably written to
the metafile (the initial dump first). -/
structure CommitResult where
  ins : Installer
  fs : Fs
  printed : List (PyStr × PyStr)
  applied : List (PyStr × Option Chg)
  record : List Meta
deriving Repr, DecidableEq

/-- One iteration of `Installer.commit`'s loop: print the label, apply the
operation to the filesystem, update the metadata, and rewrite the metafile
(truncate plus dump).  Error branches model the exceptions `os.rmdir`,
`shutil.copy2`/`open` and `os.mkdir` can raise; an aborted run returns no
state. -/
def commitStep (ins0 : Installer) (cwd : PyStr)
    (st : Fs × Meta × List (PyStr × PyStr) × List (PyStr × Option Chg) × List Meta)
    (kv : PyStr × Option Chg) :
    Except PyErr (Fs × Meta × List (PyStr × PyStr) × List (PyStr × Option Chg) × List Meta) :=
  match st with
  | (fs, meta, printed, applied, record) =>
    let k := kv.1
    let label := ins0.sim_label fs cwd k kv.2
    let fullk := Posix.join ins0.root k
    let step : Except PyErr (Fs × Meta) :=
      match kv.2 with
      | none =>
        let fs2e : Except PyErr Fs :=
          if osIsdir fs cwd fullk then
            if osListdir fs cwd fullk ≠ [] then .error .osError
            else .ok (osRemovePath fs cwd fullk)
          else if osIsfile fs cwd fullk then .ok (osRemovePath fs cwd fullk)
          else .ok fs
        match fs2e with
        | .error e => .error e
        | .ok fs2 =>
          let meta2 :=
            if (meta.files.lookup k).isSome then
              { meta with files := meta.files.filter (fun e => e.1 ≠ k) }
            else meta
          .ok (fs2, meta2)
      | some (.file s) =>
        match osStat fs cwd s with
        | some (.file fv) =>
          if osIsdir fs cwd fullk then
            .error .osError
          else if ¬ osIsdir fs cwd (Posix.psplit fullk).1 then
            .error .osError
          else
            .ok (osWrite fs cwd fullk (.file fv),
              { meta with files := dictSet meta.files k (hashFile fv) })
        | _ => .error .osError
      | some .dir =>
        if osExists fs cwd fullk then .error .osError
        else if ¬ osIsdir fs cwd (Posix.psplit fullk).1 then .error .osError
        else
          .ok (osWrite fs cwd fullk .dir,
            { meta with files := dictSet meta.files k M_HASH_DIR })
    match step with
    | .error e => .error e
    | .ok (fs2, meta2) =>
      .ok (osWrite fs2 cwd ins0.metapath (.file (.jsonMeta meta2)), meta2,
        printed ++ [(label, k)], applied ++ [kv], record ++ [meta2])

/-- `Installer.commit`. -/
def Installer.commit (ins0 : Installer) (fs0 : Fs) (cwd : PyStr) :
    Except PyErr CommitResult :=
  let data0 : Except PyErr Meta :=
    match osStat fs0 cwd ins0.metapath with
    | some .dir => .error .osError
    | some (.file (.jsonMeta m)) => .ok m
    | some (.file (.bytes _)) => .ok defaultMeta
    | none => .ok defaultMeta
  match data0 with
  | .error e => .error e
  | .ok data =>
    if data ≠ ins0.meta then .error .die
    else
      let fs1 := osWrite fs0 cwd ins0.metapath (.file (.jsonMeta ins0.meta))
      match ins0.sim.changes.foldlM (commitStep ins0 cwd)
        (fs1, ins0.meta, [], [], [ins0.meta]) with
      | .error e => .error e
      | .ok res =>
        match res with
        | (fsEnd, metaEnd, printed, applied, record) =>
          let ins1 := { ins0 with sim := ins0.sim.reset, meta := metaEnd }
          let fsFinal :=
            if metaEnd.files = [] then osRemovePath fsEnd cwd ins0.metapath
            else fsEnd
          .ok ⟨ins1, fsFinal, printed, applied, record⟩

/-! ## Path canonicalization lemmas for the OS layer -/

namespace Posix

theorem initialSlashes_cases (p : PyStr) (h : pyStartsWith p [sep] = true) :
    initialSlashes p = 1 ∨ initialSlashes p = 2 := by
  rw [initialSlashes, if_pos h]
  split
  · exact Or.inr rfl
  · exact Or.inl rfl

theorem initialSlashes_eq_one (p : PyStr) (h1 : pyStartsWith p [sep] = true)
    (h2 : ¬ pyStartsWith p [sep, sep] = true) : initialSlashes p = 1 := by
  rw [initialSlashes, if_pos h1, if_neg]
  rintro ⟨h, -⟩
  exact h2 h

theorem intercalate_resolveA_not_abs (q : PyStr) :
    ¬ pyStartsWith ([sep].intercalate (resolveA q)) [sep] = true := by
  cases hres : resolveA q with
  | nil => decide
  | cons a t =>
    have hclean := resolveA_clean q
    rw [hres] at hclean
    exact intercalate_not_abs (a :: t) (by simp)
      (fun e he => ⟨(hclean e he).1.1, (hclean e he).2⟩)

theorem startsWith_cons_iff (c : Char) (X pre : PyStr) :
    pyStartsWith (c :: X) (c :: pre) = true ↔ pyStartsWith X pre = true := by
  rw [pyStartsWith, pyStartsWith, List.isPrefixOf_iff_prefix,
    List.isPrefixOf_iff_prefix, List.cons_prefix_cons]
  simp

theorem initialSlashes_normpath (q : PyStr) (h : pyStartsWith q [sep] = true) :
    initialSlashes (normpath q) = initialSlashes q := by
  have hXna := intercalate_resolveA_not_abs q
  rw [normpath_abs q h]
  rcases initialSlashes_cases q h with h1 | h1 <;> rw [h1]
  · rw [show List.replicate 1 sep ++ [sep].intercalate (resolveA q) =
        sep :: [sep].intercalate (resolveA q) from rfl]
    rw [initialSlashes, if_pos ((pyStartsWith_singleton _ sep).2 ⟨_, rfl⟩),
      if_neg]
    rintro ⟨hss, -⟩
    exact hXna ((startsWith_cons_iff sep _ [sep]).1 hss)
  · rw [show List.replicate 2 sep ++ [sep].intercalate (resolveA q) =
        sep :: sep :: [sep].intercalate (resolveA q) from rfl]
    rw [initialSlashes, if_pos ((pyStartsWith_singleton _ sep).2 ⟨_, rfl⟩),
      if_pos]
    constructor
    · exact List.isPrefixOf_iff_prefix.2 ⟨_, rfl⟩
    · intro hsss
      exact hXna ((startsWith_cons_iff sep _ [sep]).1
        ((startsWith_cons_iff sep _ [sep, sep]).1 hsss))

theorem foldl_normStep_empties (u : Nat) (acc : List PyStr) (n : Nat) :
    (List.replicate n ([] : PyStr)).foldl (normStep u) acc = acc := by
  induction n with
  | zero => rfl
  | succ n ih =>
    rw [List.replicate_succ, List.foldl_cons, normStep_skip u acc (Or.inl rfl), ih]

theorem resolveA_normpath (q : PyStr) (h : pyStartsWith q [sep] = true) :
    resolveA (normpath q) = resolveA q := by
  rw [normpath_abs q h, resolveA, splitOn_replicate_sep, List.foldl_append,
    foldl_normStep_empties]
  cases hres : resolveA q with
  | nil => rfl
  | cons a t =>
    have hclean := resolveA_clean q
    rw [hres] at hclean
    rw [List.splitOn_intercalate _ sep (fun l hl => (hclean l hl).2) (by simp),
      foldl_normStep_normal 1 [] _ (fun y hy => (hclean y hy).1),
      List.nil_append]

theorem normpath_starts_sep (q : PyStr) (h : pyStartsWith q [sep] = true) :
    pyStartsWith (normpath q) [sep] = true := by
  rw [normpath_abs q h]
  rcases initialSlashes_cases q h with h1 | h1 <;> rw [h1] <;>
    exact (pyStartsWith_singleton _ sep).2 ⟨_, rfl⟩

theorem normpath_idem_abs (q : PyStr) (h : pyStartsWith q [sep] = true) :
    normpath (normpath q) = normpath q := by
  rw [normpath_abs (normpath q) (normpath_starts_sep q h),
    initialSlashes_normpath q h, resolveA_normpath q h, ← normpath_abs q h]

theorem abspath_abs (cwd q : PyStr) (hcwd : pyStartsWith cwd [sep] = true) :
    pyStartsWith (abspath cwd q) [sep] = true := by
  rw [abspath]
  by_cases hq : isabs q = true
  · rw [if_pos hq]
    exact normpath_starts_sep q hq
  · rw [if_neg hq]
    exact normpath_starts_sep _ (join_abs cwd q hcwd)

theorem abspath_idem (cwd q : PyStr) (hcwd : pyStartsWith cwd [sep] = true) :
    abspath cwd (abspath cwd q) = abspath cwd q := by
  have h2 : ∃ r, pyStartsWith r [sep] = true ∧ abspath cwd q = normpath r := by
    by_cases hq : isabs q = true
    · exact ⟨q, hq, by rw [abspath, if_pos hq]⟩
    · exact ⟨join cwd q, join_abs cwd q hcwd, by rw [abspath, if_neg hq]⟩
  obtain ⟨r, hr, heq⟩ := h2
  have h1 : isabs (abspath cwd q) = true := abspath_abs cwd q hcwd
  calc abspath cwd (abspath cwd q)
      = normpath (abspath cwd q) := by
        show (if isabs (abspath cwd q) = true then normpath (abspath cwd q)
          else normpath (join cwd (abspath cwd q))) = normpath (abspath cwd q)
        rw [if_pos h1]
    _ = normpath (normpath r) := by rw [heq]
    _ = normpath r := normpath_idem_abs r hr
    _ = abspath cwd q := heq.symm

end Posix

theorem osCanon_abspath (cwd q : PyStr)
    (hcwd : pyStartsWith cwd [Posix.sep] = true) :
    osCanon cwd (Posix.abspath cwd q) = osCanon cwd q := by
  simp only [osCanon, Posix.abspath_idem cwd q hcwd]

/-- Joining the simulator key back onto the root denotes the same kernel
path as joining the raw argument: the coherence between the raw
`os.path.join(root, dst)` accesses and the key-based ones. -/
theorem osCanon_join_key (cwd root dst : PyStr) (hc : Posix.CanonicalRoot root) :
    osCanon cwd (Posix.join root (simNormpath cwd root dst)) =
      osCanon cwd (Posix.join root dst) := by
  have hkeyrel : ¬ pyStartsWith (simNormpath cwd root dst) [Posix.sep] = true := by
    rw [Posix.simNormpath_eq_relpath cwd root dst hc]
    exact Posix.relpath_join_not_abs cwd root dst hc
  have habs1 : Posix.abspath cwd (Posix.join root (simNormpath cwd root dst)) =
      Posix.sep :: [Posix.sep].intercalate (Posix.resolveA (Posix.join root dst)) := by
    have hj := Posix.join_abs root (simNormpath cwd root dst) hc.1
    have hres : Posix.resolveA (Posix.join root (simNormpath cwd root dst)) =
        Posix.resolveA (Posix.join root dst) := by
      have h1 := Posix.pc_eq cwd root (simNormpath cwd root dst) hc
      have h2 := Posix.pathList_stable cwd root dst hc
      rw [← Posix.simNormpath_eq_relpath cwd root dst hc] at h2
      have h3 := Posix.pc_eq cwd root dst hc
      rw [← h1, h2, h3]
    rw [Posix.abspath, if_pos (show Posix.isabs _ = true from hj),
      Posix.normpath_abs _ hj,
      Posix.initialSlashes_eq_one _ hj
        (Posix.join_not_double_sep root _ hc hkeyrel), hres]
    rfl
  have habs2 : Posix.abspath cwd (Posix.join root dst) =
      List.replicate (Posix.initialSlashes (Posix.join root dst)) Posix.sep ++
        [Posix.sep].intercalate (Posix.resolveA (Posix.join root dst)) := by
    have hj := Posix.join_abs root dst hc.1
    rw [Posix.abspath, if_pos (show Posix.isabs _ = true from hj),
      Posix.normpath_abs _ hj]
  have hXna := Posix.intercalate_resolveA_not_abs (Posix.join root dst)
  have hnot1 : ¬ pyStartsWith
      (Posix.sep :: [Posix.sep].intercalate (Posix.resolveA (Posix.join root dst)))
      [Posix.sep, Posix.sep] = true := by
    intro hss
    exact hXna ((Posix.startsWith_cons_iff Posix.sep _ [Posix.sep]).1 hss)
  simp only [osCanon]
  rw [habs1, habs2]
  rcases Posix.initialSlashes_cases _ (Posix.join_abs root dst hc.1) with h1 | h1 <;>
    rw [h1]
  · rw [show List.replicate 1 Posix.sep ++
        [Posix.sep].intercalate (Posix.resolveA (Posix.join root dst)) =
        Posix.sep :: [Posix.sep].intercalate (Posix.resolveA (Posix.join root dst))
        from rfl]
  · rw [show List.replicate 2 Posix.sep ++
        [Posix.sep].intercalate (Posix.resolveA (Posix.join root dst)) =
        Posix.sep :: Posix.sep ::
          [Posix.sep].intercalate (Posix.resolveA (Posix.join root dst))
        from rfl]
    rw [if_neg hnot1, if_pos (show pyStartsWith
      (Posix.sep :: Posix.sep ::
        [Posix.sep].intercalate (Posix.resolveA (Posix.join root dst)))
      [Posix.sep, Posix.sep] = true from List.isPrefixOf_iff_prefix.2 ⟨_, rfl⟩)]
    rfl

theorem osStat_congr (fs : Fs) (cwd p q : PyStr)
    (h : osCanon cwd p = osCanon cwd q) : osStat fs cwd p = osStat fs cwd q := by
  rw [osStat, osStat, h]

theorem osExists_congr (fs : Fs) (cwd p q : PyStr)
    (h : osCanon cwd p = osCanon cwd q) :
    osExists fs cwd p = osExists fs cwd q := by
  rw [osExists, osExists, osStat_congr fs cwd p q h]

theorem osIsdir_congr (fs : Fs) (cwd p q : PyStr)
    (h : osCanon cwd p = osCanon cwd q) :
    osIsdir fs cwd p = osIsdir fs cwd q := by
  rw [osIsdir, osIsdir, osStat_congr fs cwd p q h]

theorem osIsfile_congr (fs : Fs) (cwd p q : PyStr)
    (h : osCanon cwd p = osCanon cwd q) :
    osIsfile fs cwd p = osIsfile fs cwd q := by
  rw [osIsfile, osIsfile, osStat_congr fs cwd p q h]

/-! ## Lookup lemmas for the changes dict -/

theorem lookup_cons_eqn {α : Type} (a k : PyStr) (b : α)
    (m : List (PyStr × α)) :
    ((a, b) :: m).lookup k = if k = a then some b else m.lookup k := by
  rw [List.lookup_cons]
  by_cases h : k = a
  · have hb : (k == a) = true := by simpa using h
    rw [hb, if_pos h]
  · have hb : (k == a) = false := by simpa using h
    rw [hb, if_neg h]

theorem lookup_filterNe {α : Type} (m : List (PyStr × α)) (k k2 : PyStr)
    (h : k2 ≠ k) :
    (m.filter (fun e => e.1 ≠ k)).lookup k2 = m.lookup k2 := by
  induction m with
  | nil => rfl
  | cons e m ih =>
    obtain ⟨a, b⟩ := e
    by_cases ha : a = k
    · rw [List.filter_cons_of_neg (by simp [ha]), ih, lookup_cons_eqn,
        if_neg (ha ▸ h)]
    · rw [List.filter_cons_of_pos (by simpa using ha), lookup_cons_eqn,
        lookup_cons_eqn, ih]

theorem lookup_filterNe_self {α : Type} (m : List (PyStr × α)) (k : PyStr) :
    (m.filter (fun e => e.1 ≠ k)).lookup k = none := by
  induction m with
  | nil => rfl
  | cons e m ih =>
    obtain ⟨a, b⟩ := e
    by_cases ha : a = k
    · rw [List.filter_cons_of_neg (by simp [ha])]
      exact ih
    · rw [List.filter_cons_of_pos (by simpa using ha), lookup_cons_eqn,
        if_neg (fun h2 => ha h2.symm)]
      exact ih

theorem lookup_append_right {α : Type} (m1 m2 : List (PyStr × α)) (k : PyStr)
    (h : m1.lookup k = none) : (m1 ++ m2).lookup k = m2.lookup k := by
  induction m1 with
  | nil => rfl
  | cons e m ih =>
    obtain ⟨a, b⟩ := e
    rw [lookup_cons_eqn] at h
    rw [List.cons_append, lookup_cons_eqn]
    by_cases h2 : k = a
    · rw [if_pos h2] at h
      cases h
    · rw [if_neg h2] at h ⊢
      exact ih h

theorem lookup_luodSet_self (m : List (PyStr × Option Chg)) (k : PyStr)
    (v : Option Chg) : (luodSet m k v).lookup k = some v := by
  rw [luodSet, lookup_append_right _ _ _ (lookup_filterNe_self m k),
    lookup_cons_eqn, if_pos rfl]

theorem lookup_append_left {α : Type} (m1 m2 : List (PyStr × α)) (k : PyStr)
    (b : α) (h : m1.lookup k = some b) : (m1 ++ m2).lookup k = some b := by
  induction m1 with
  | nil => cases h
  | cons e m ih =>
    obtain ⟨a, c⟩ := e
    rw [lookup_cons_eqn] at h
    rw [List.cons_append, lookup_cons_eqn]
    by_cases h2 : k = a
    · rw [if_pos h2] at h ⊢
      exact h
    · rw [if_neg h2] at h ⊢
      exact ih h

theorem lookup_luodSet_ne (m : List (PyStr × Option Chg)) (k k2 : PyStr)
    (v : Option Chg) (h : k2 ≠ k) :
    (luodSet m k v).lookup k2 = m.lookup k2 := by
  rw [luodSet, ← lookup_filterNe m k k2 h]
  cases hf : (m.filter (fun e => e.1 ≠ k)).lookup k2 with
  | none =>
    rw [lookup_append_right _ _ _ hf, lookup_cons_eqn, if_neg h]
    rfl
  | some b => rw [lookup_append_left _ _ _ _ hf]

theorem lookup_luodDel_self (m : List (PyStr × Option Chg)) (k : PyStr) :
    (luodDel m k).lookup k = none := lookup_filterNe_self m k

theorem lookup_luodDel_ne (m : List (PyStr × Option Chg)) (k k2 : PyStr)
    (h : k2 ≠ k) : (luodDel m k).lookup k2 = m.lookup k2 :=
  lookup_filterNe m k k2 h


/-! ## Simulator query and planning lemmas -/

theorem isdir_congr_lookup (fs : Fs) (cwd : PyStr) (s t : InstallSimulator)
    (p : PyStr) (hroot : t.root = s.root)
    (hl : t.changes.lookup (simNormpath cwd s.root p) =
      s.changes.lookup (simNormpath cwd s.root p)) :
    t.isdir fs cwd p = s.isdir fs cwd p := by
  rw [InstallSimulator.isdir, InstallSimulator.isdir, hroot, hl]

theorem isfile_congr_lookup (fs : Fs) (cwd : PyStr) (s t : InstallSimulator)
    (p : PyStr) (hroot : t.root = s.root)
    (hl : t.changes.lookup (simNormpath cwd s.root p) =
      s.changes.lookup (simNormpath cwd s.root p)) :
    t.isfile fs cwd p = s.isfile fs cwd p := by
  rw [InstallSimulator.isfile, InstallSimulator.isfile, hroot, hl]

theorem pexists_congr_lookup (fs : Fs) (cwd : PyStr) (s t : InstallSimulator)
    (p : PyStr) (hroot : t.root = s.root)
    (hl : t.changes.lookup (simNormpath cwd s.root p) =
      s.changes.lookup (simNormpath cwd s.root p)) :
    t.pexists fs cwd p = s.pexists fs cwd p := by
  rw [InstallSimulator.pexists, InstallSimulator.pexists, hroot, hl]

theorem isdir_key_congr (fs : Fs) (cwd : PyStr) (s : InstallSimulator)
    (p q : PyStr)
    (hk : simNormpath cwd s.root p = simNormpath cwd s.root q) :
    s.isdir fs cwd p = s.isdir fs cwd q := by
  rw [InstallSimulator.isdir, InstallSimulator.isdir, hk]

theorem makedir_root (fs : Fs) (cwd : PyStr) (s t : InstallSimulator)
    (dst : PyStr) (h : s.makedir fs cwd dst = .ok t) : t.root = s.root := by
  simp only [InstallSimulator.makedir] at h
  split_ifs at h with h1 h2 h3
  · exact (Except.ok.inj h) ▸ rfl
  · exact (Except.ok.inj h) ▸ rfl
  · exact (Except.ok.inj h) ▸ rfl

theorem makedir_lookup_ne (fs : Fs) (cwd : PyStr) (s t : InstallSimulator)
    (dst : PyStr) (h : s.makedir fs cwd dst = .ok t) (k2 : PyStr)
    (hne : k2 ≠ simNormpath cwd s.root dst) :
    t.changes.lookup k2 = s.changes.lookup k2 := by
  simp only [InstallSimulator.makedir] at h
  split_ifs at h with h1 h2 h3
  · rw [← Except.ok.inj h]
  · rw [← Except.ok.inj h]
    exact (lookup_luodDel_ne _ _ _ hne).trans (lookup_luodSet_ne _ _ _ _ hne)
  · rw [← Except.ok.inj h]
    exact lookup_luodSet_ne _ _ _ _ hne

theorem makedir_isdir (fs : Fs) (cwd : PyStr) (s t : InstallSimulator)
    (dst : PyStr) (hc : Posix.CanonicalRoot s.root)
    (h : s.makedir fs cwd dst = .ok t) : t.isdir fs cwd dst = true := by
  simp only [InstallSimulator.makedir] at h
  split_ifs at h with h1 h2 h3
  · rw [← Except.ok.inj h]
    exact h1
  · rw [← Except.ok.inj h]
    rw [InstallSimulator.isdir, lookup_luodDel_self]
    have := osIsdir_congr fs cwd (Posix.join s.root (simNormpath cwd s.root dst))
      (Posix.join s.root dst) (osCanon_join_key cwd s.root dst hc)
    rw [this]
    exact h3
  · rw [← Except.ok.inj h]
    rw [InstallSimulator.isdir, lookup_luodSet_self]

theorem makedir_of_isdir (fs : Fs) (cwd : PyStr) (s : InstallSimulator)
    (dst : PyStr) (h : s.isdir fs cwd dst = true) :
    s.makedir fs cwd dst = .ok s := by
  rw [InstallSimulator.makedir, if_pos h]

theorem makedir_preserves_isdir (fs : Fs) (cwd : PyStr)
    (s t : InstallSimulator) (dst a : PyStr) (hc : Posix.CanonicalRoot s.root)
    (h : s.makedir fs cwd dst = .ok t)
    (ha : s.isdir fs cwd a = true) : t.isdir fs cwd a = true := by
  by_cases hkey : simNormpath cwd s.root a = simNormpath cwd s.root dst
  · have hroot := makedir_root fs cwd s t dst h
    have h2 : t.isdir fs cwd a = t.isdir fs cwd dst := by
      apply isdir_key_congr
      rw [hroot, hkey]
    rw [h2]
    exact makedir_isdir fs cwd s t dst hc h
  · rw [isdir_congr_lookup fs cwd s t a (makedir_root fs cwd s t dst h)
      (makedir_lookup_ne fs cwd s t dst h _ hkey)]
    exact ha

theorem makedirsF_root (fs : Fs) (cwd : PyStr) (fuel : Nat) :
    ∀ (p : PyStr) (s t : InstallSimulator),
      InstallSimulator.makedirsF fs cwd fuel s p = .ok t → t.root = s.root := by
  induction fuel with
  | zero => intro p s t h; cases h
  | succ fuel ih =>
    intro p s t h
    have step : ∀ arg : PyStr,
        (match InstallSimulator.makedirsF fs cwd fuel s arg with
          | .ok sim2 => sim2.makedir fs cwd p
          | .error e => .error e) = .ok t → t.root = s.root := by
      intro arg hm
      cases hrec : InstallSimulator.makedirsF fs cwd fuel s arg with
      | ok sim2 =>
        rw [hrec] at hm
        exact (makedir_root fs cwd sim2 t p hm).trans (ih _ s sim2 hrec)
      | error e =>
        rw [hrec] at hm
        cases hm
    simp only [InstallSimulator.makedirsF] at h
    split_ifs at h
    · exact step _ h
    · exact makedir_root fs cwd s t p h
    · exact step _ h
    · exact makedir_root fs cwd s t p h

theorem makedirsF_isdir (fs : Fs) (cwd : PyStr) (fuel : Nat) :
    ∀ (p : PyStr) (s t : InstallSimulator), Posix.CanonicalRoot s.root →
      InstallSimulator.makedirsF fs cwd fuel s p = .ok t →
      t.isdir fs cwd p = true := by
  induction fuel with
  | zero => intro p s t _ h; cases h
  | succ fuel ih =>
    intro p s t hc h
    have step : ∀ arg : PyStr,
        (match InstallSimulator.makedirsF fs cwd fuel s arg with
          | .ok sim2 => sim2.makedir fs cwd p
          | .error e => .error e) = .ok t → t.isdir fs cwd p = true := by
      intro arg hm
      cases hrec : InstallSimulator.makedirsF fs cwd fuel s arg with
      | ok sim2 =>
        rw [hrec] at hm
        have hroot := makedirsF_root fs cwd fuel _ s sim2 hrec
        exact makedir_isdir fs cwd sim2 t p (hroot ▸ hc) hm
      | error e =>
        rw [hrec] at hm
        cases hm
    simp only [InstallSimulator.makedirsF] at h
    split_ifs at h
    · exact step _ h
    · exact makedir_isdir fs cwd s t p hc h
    · exact step _ h
    · exact makedir_isdir fs cwd s t p hc h

theorem makedirsF_preserves_isdir (fs : Fs) (cwd : PyStr) (fuel : Nat) :
    ∀ (p : PyStr) (s t : InstallSimulator), Posix.CanonicalRoot s.root →
      InstallSimulator.makedirsF fs cwd fuel s p = .ok t →
      ∀ a, s.isdir fs cwd a = true → t.isdir fs cwd a = true := by
  induction fuel with
  | zero => intro p s t _ h; cases h
  | succ fuel ih =>
    intro p s t hc h a ha
    have step : ∀ arg : PyStr,
        (match InstallSimulator.makedirsF fs cwd fuel s arg with
          | .ok sim2 => sim2.makedir fs cwd p
          | .error e => .error e) = .ok t → t.isdir fs cwd a = true := by
      intro arg hm
      cases hrec : InstallSimulator.makedirsF fs cwd fuel s arg with
      | ok sim2 =>
        rw [hrec] at hm
        have hroot := makedirsF_root fs cwd fuel _ s sim2 hrec
        exact makedir_preserves_isdir fs cwd sim2 t p a (hroot ▸ hc) hm
          (ih _ s sim2 hc hrec a ha)
      | error e =>
        rw [hrec] at hm
        cases hm
    simp only [InstallSimulator.makedirsF] at h
    split_ifs at h
    · exact step _ h
    · exact makedir_preserves_isdir fs cwd s t p a hc h ha
    · exact step _ h
    · exact makedir_preserves_isdir fs cwd s t p a hc h ha

theorem makedirsF_stable (fs : Fs) (cwd : PyStr) (fuel : Nat) :
    ∀ (p : PyStr) (s t : InstallSimulator), Posix.CanonicalRoot s.root →
      InstallSimulator.makedirsF fs cwd fuel s p = .ok t →
      ∀ u : InstallSimulator,
        (∀ a, t.isdir fs cwd a = true → u.isdir fs cwd a = true) →
        InstallSimulator.makedirsF fs cwd fuel u p = .ok u := by
  induction fuel with
  | zero => intro p s t _ h; cases h
  | succ fuel ih =>
    intro p s t hc h u hu
    have step : ∀ arg : PyStr,
        (match InstallSimulator.makedirsF fs cwd fuel s arg with
          | .ok sim2 => sim2.makedir fs cwd p
          | .error e => .error e) = .ok t →
        (match InstallSimulator.makedirsF fs cwd fuel u arg with
          | .ok sim2 => sim2.makedir fs cwd p
          | .error e => .error e) = .ok u := by
      intro arg hm
      cases hrec : InstallSimulator.makedirsF fs cwd fuel s arg with
      | ok sim2 =>
        rw [hrec] at hm
        have hroot := makedirsF_root fs cwd fuel _ s sim2 hrec
        have hurec : InstallSimulator.makedirsF fs cwd fuel u arg = .ok u := by
          refine ih _ s sim2 hc hrec u ?_
          intro a ha
          exact hu a (makedir_preserves_isdir fs cwd sim2 t p a
            (hroot ▸ hc) hm ha)
        rw [hurec]
        exact makedir_of_isdir fs cwd u p
          (hu p (makedir_isdir fs cwd sim2 t p (hroot ▸ hc) hm))
      | error e =>
        rw [hrec] at hm
        cases hm
    have hlast : ∀ hm2 : s.makedir fs cwd p = .ok t,
        u.makedir fs cwd p = .ok u := fun hm2 =>
      makedir_of_isdir fs cwd u p (hu p (makedir_isdir fs cwd s t p hc hm2))
    simp only [InstallSimulator.makedirsF] at h ⊢
    split_ifs at h ⊢
    · exact step _ h
    · exact hlast h
    · exact step _ h
    · exact hlast h

theorem makedir_idem (fs : Fs) (cwd : PyStr) (s t : InstallSimulator)
    (dst : PyStr) (hc : Posix.CanonicalRoot s.root)
    (h : s.makedir fs cwd dst = .ok t) : t.makedir fs cwd dst = .ok t :=
  makedir_of_isdir fs cwd t dst (makedir_isdir fs cwd s t dst hc h)

theorem pexists_luodSet_none (fs : Fs) (cwd root : PyStr)
    (m : List (PyStr × Option Chg)) (dst : PyStr) :
    InstallSimulator.pexists
      ⟨root, luodSet m (simNormpath cwd root dst) none⟩ fs cwd dst = false := by
  rw [InstallSimulator.pexists]
  rw [show (InstallSimulator.mk root
      (luodSet m (simNormpath cwd root dst) none)).changes =
      luodSet m (simNormpath cwd root dst) none from rfl]
  rw [lookup_luodSet_self]

theorem pexists_luodDel_drop (fs : Fs) (cwd root : PyStr)
    (m : List (PyStr × Option Chg)) (dst : PyStr)
    (hc : Posix.CanonicalRoot root)
    (hos : ¬ osExists fs cwd (Posix.join root dst) = true) :
    InstallSimulator.pexists
      ⟨root, luodDel (luodSet m (simNormpath cwd root dst) none)
        (simNormpath cwd root dst)⟩ fs cwd dst = false := by
  rw [InstallSimulator.pexists]
  rw [show (InstallSimulator.mk root
      (luodDel (luodSet m (simNormpath cwd root dst) none)
        (simNormpath cwd root dst))).changes =
      luodDel (luodSet m (simNormpath cwd root dst) none)
        (simNormpath cwd root dst) from rfl]
  rw [lookup_luodDel_self]
  have hcg := osExists_congr fs cwd
    (Posix.join root (simNormpath cwd root dst)) (Posix.join root dst)
    (osCanon_join_key cwd root dst hc)
  rw [show (InstallSimulator.mk root
      (luodDel (luodSet m (simNormpath cwd root dst) none)
        (simNormpath cwd root dst))).root = root from rfl]
  rw [hcg]
  simpa using hos

theorem rmdir_not_exists (fs : Fs) (cwd : PyStr) (s t : InstallSimulator)
    (dst : PyStr) (hc : Posix.CanonicalRoot s.root)
    (h : s.rmdir fs cwd dst = .ok t) : t.pexists fs cwd dst = false := by
  simp only [InstallSimulator.rmdir] at h
  split_ifs at h with h1 h2 h3 h4
  all_goals
    (obtain rfl := Except.ok.inj h
     first
         | exact pexists_luodSet_none fs cwd s.root s.changes dst
         | exact pexists_luodDel_drop fs cwd s.root s.changes dst hc
             (by simpa using h4)
         | simpa using h1)

theorem rmdir_of_not_exists (fs : Fs) (cwd : PyStr) (s : InstallSimulator)
    (dst : PyStr) (h : s.pexists fs cwd dst = false) :
    s.rmdir fs cwd dst = .ok s := by
  rw [InstallSimulator.rmdir, if_pos (by simp [h])]

theorem rmdir_idem (fs : Fs) (cwd : PyStr) (s t : InstallSimulator)
    (dst : PyStr) (hc : Posix.CanonicalRoot s.root)
    (h : s.rmdir fs cwd dst = .ok t) : t.rmdir fs cwd dst = .ok t :=
  rmdir_of_not_exists fs cwd t dst (rmdir_not_exists fs cwd s t dst hc h)

theorem remove_file_not_exists (fs : Fs) (cwd : PyStr)
    (s t : InstallSimulator) (dst : PyStr) (hc : Posix.CanonicalRoot s.root)
    (h : s.remove_file fs cwd dst = .ok t) : t.pexists fs cwd dst = false := by
  simp only [InstallSimulator.remove_file] at h
  split_ifs at h with h1 h2 h3
  all_goals
    (obtain rfl := Except.ok.inj h
     first
         | exact pexists_luodSet_none fs cwd s.root s.changes dst
         | exact pexists_luodDel_drop fs cwd s.root s.changes dst hc
             (by simpa using h3)
         | simpa using h1)

theorem remove_file_of_not_exists (fs : Fs) (cwd : PyStr)
    (s : InstallSimulator) (dst : PyStr) (h : s.pexists fs cwd dst = false) :
    s.remove_file fs cwd dst = .ok s := by
  rw [InstallSimulator.remove_file, if_pos (by simp [h])]

theorem remove_file_idem (fs : Fs) (cwd : PyStr) (s t : InstallSimulator)
    (dst : PyStr) (hc : Posix.CanonicalRoot s.root)
    (h : s.remove_file fs cwd dst = .ok t) :
    t.remove_file fs cwd dst = .ok t :=
  remove_file_of_not_exists fs cwd t dst
    (remove_file_not_exists fs cwd s t dst hc h)

theorem rmdir_root (fs : Fs) (cwd : PyStr) (s t : InstallSimulator)
    (dst : PyStr) (h : s.rmdir fs cwd dst = .ok t) : t.root = s.root := by
  simp only [InstallSimulator.rmdir] at h
  split_ifs at h
  all_goals
    obtain rfl := Except.ok.inj h; rfl

theorem rmdir_lookup_ne (fs : Fs) (cwd : PyStr) (s t : InstallSimulator)
    (dst : PyStr) (h : s.rmdir fs cwd dst = .ok t) (k2 : PyStr)
    (hne : k2 ≠ simNormpath cwd s.root dst) :
    t.changes.lookup k2 = s.changes.lookup k2 := by
  simp only [InstallSimulator.rmdir] at h
  split_ifs at h
  all_goals
    (obtain rfl := Except.ok.inj h
     first
         | rfl
         | exact (lookup_luodDel_ne _ _ _ hne).trans
             (lookup_luodSet_ne _ _ _ _ hne)
         | exact lookup_luodSet_ne _ _ _ _ hne)

theorem remove_file_root (fs : Fs) (cwd : PyStr) (s t : InstallSimulator)
    (dst : PyStr) (h : s.remove_file fs cwd dst = .ok t) : t.root = s.root := by
  simp only [InstallSimulator.remove_file] at h
  split_ifs at h
  all_goals
    obtain rfl := Except.ok.inj h; rfl

theorem remove_file_lookup_ne (fs : Fs) (cwd : PyStr) (s t : InstallSimulator)
    (dst : PyStr) (h : s.remove_file fs cwd dst = .ok t) (k2 : PyStr)
    (hne : k2 ≠ simNormpath cwd s.root dst) :
    t.changes.lookup k2 = s.changes.lookup k2 := by
  simp only [InstallSimulator.remove_file] at h
  split_ifs at h
  all_goals
    (obtain rfl := Except.ok.inj h
     first
         | rfl
         | exact (lookup_luodDel_ne _ _ _ hne).trans
             (lookup_luodSet_ne _ _ _ _ hne)
         | exact lookup_luodSet_ne _ _ _ _ hne)

theorem filterNe_idem {α : Type} (m : List (PyStr × α)) (k : PyStr) :
    (m.filter (fun e => e.1 ≠ k)).filter (fun e => e.1 ≠ k) =
      m.filter (fun e => e.1 ≠ k) := by
  induction m with
  | nil => rfl
  | cons e m ih =>
    by_cases h : e.1 = k
    · rw [List.filter_cons_of_neg (by simp [h])]
      exact ih
    · rw [List.filter_cons_of_pos (by simp [h]),
        List.filter_cons_of_pos (by simp [h]), ih]

theorem luodSet_idem (m : List (PyStr × Option Chg)) (k : PyStr)
    (v : Option Chg) : luodSet (luodSet m k v) k v = luodSet m k v := by
  simp only [luodSet, List.filter_append, filterNe_idem]
  simp

theorem luodDel_luodSet (m : List (PyStr × Option Chg)) (k : PyStr)
    (v : Option Chg) : luodDel (luodSet m k v) k = luodDel m k := by
  simp only [luodDel, luodSet, List.filter_append, filterNe_idem]
  simp

theorem filecmpCmp_ok_true (fs : Fs) (cwd a b : PyStr)
    (h : filecmpCmp fs cwd a b = .ok true) :
    ∃ x, osStat fs cwd a = some (FsEntry.file x) ∧
      osStat fs cwd b = some (FsEntry.file x) := by
  unfold filecmpCmp at h
  cases ha : osStat fs cwd a with
  | none => rw [ha] at h; cases hb : osStat fs cwd b <;> rw [hb] at h <;> cases h
  | some ea =>
    rw [ha] at h
    cases hb : osStat fs cwd b with
    | none => rw [hb] at h; cases ea <;> cases h
    | some eb =>
      rw [hb] at h
      cases ea with
      | dir => cases eb <;> simp at h
      | file x =>
        cases eb with
        | dir => simp at h
        | file y =>
          have hx : x = y := of_decide_eq_true (Except.ok.inj h)
          exact ⟨x, rfl, by rw [hx]⟩

theorem same_file_real_eval (fs : Fs) (cwd src dst : PyStr)
    (s : InstallSimulator) :
    s.same_file fs cwd src dst true =
      (if osExists fs cwd (Posix.join s.root dst) then
        filecmpCmp fs cwd src (Posix.join s.root dst)
      else .ok false) := by
  by_cases hex : osExists fs cwd (Posix.join s.root dst) <;>
    simp [InstallSimulator.same_file, hex]

theorem same_file_file_entry (fs : Fs) (cwd src dst s2 : PyStr)
    (s : InstallSimulator)
    (hl : s.changes.lookup (simNormpath cwd s.root dst) =
      some (some (Chg.file s2))) :
    s.same_file fs cwd src dst false =
      (if osExists fs cwd s2 then filecmpCmp fs cwd src s2 else .ok false) := by
  by_cases hex : osExists fs cwd s2 <;>
    simp [InstallSimulator.same_file, hl, hex]

theorem same_file_no_entry (fs : Fs) (cwd src dst : PyStr)
    (s : InstallSimulator)
    (hl : s.changes.lookup (simNormpath cwd s.root dst) = none) :
    s.same_file fs cwd src dst false =
      (if osExists fs cwd (Posix.join s.root dst) then
        filecmpCmp fs cwd src (Posix.join s.root dst)
      else .ok false) := by
  by_cases hex : osExists fs cwd (Posix.join s.root dst) <;>
    simp [InstallSimulator.same_file, hl, hex]

theorem same_file_real_true (fs : Fs) (cwd src dst : PyStr)
    (s : InstallSimulator) (h : s.same_file fs cwd src dst true = .ok true) :
    ∃ x, osStat fs cwd src = some (FsEntry.file x) ∧
      osStat fs cwd (Posix.join s.root dst) = some (FsEntry.file x) := by
  rw [same_file_real_eval] at h
  by_cases hex : osExists fs cwd (Posix.join s.root dst)
  · rw [if_pos hex] at h
    exact filecmpCmp_ok_true fs cwd src (Posix.join s.root dst) h
  · rw [if_neg hex] at h
    simp at h

theorem same_file_abspath_entry (fs : Fs) (cwd src dst : PyStr)
    (s : InstallSimulator) (hcwd : pyStartsWith cwd [Posix.sep] = true)
    (hl : s.changes.lookup (simNormpath cwd s.root dst) =
      some (some (Chg.file (Posix.abspath cwd src)))) :
    s.same_file fs cwd src dst false = .ok true ∨
      s.same_file fs cwd src dst false = .ok false := by
  rw [same_file_file_entry fs cwd src dst _ s hl]
  by_cases hex : osExists fs cwd (Posix.abspath cwd src)
  · rw [if_pos hex]
    have hstat : osStat fs cwd (Posix.abspath cwd src) = osStat fs cwd src :=
      osStat_congr fs cwd _ _ (osCanon_abspath cwd src hcwd)
    have hex2 : (osStat fs cwd src).isSome := by
      rw [← hstat]
      exact hex
    unfold filecmpCmp
    rw [hstat]
    cases hst : osStat fs cwd src with
    | none => simp [hst] at hex2
    | some e =>
      cases e with
      | dir => right; rfl
      | file x => left; simp
  · right
    rw [if_neg hex]

theorem isdir_eval_none (fs : Fs) (cwd dst : PyStr) (s : InstallSimulator)
    (hl : s.changes.lookup (simNormpath cwd s.root dst) = none) :
    s.isdir fs cwd dst =
      osIsdir fs cwd (Posix.join s.root (simNormpath cwd s.root dst)) := by
  simp [InstallSimulator.isdir, hl]

theorem isdir_eval_file (fs : Fs) (cwd dst s2 : PyStr) (s : InstallSimulator)
    (hl : s.changes.lookup (simNormpath cwd s.root dst) =
      some (some (Chg.file s2))) :
    s.isdir fs cwd dst = false := by
  simp [InstallSimulator.isdir, hl]

theorem isdir_transfer (fs : Fs) (cwd : PyStr) (simA t : InstallSimulator)
    (dst : PyStr) (hdir : simA.isdir fs cwd dst = false)
    (hroot : t.root = simA.root)
    (hl : ∀ k2, k2 ≠ simNormpath cwd simA.root dst →
      t.changes.lookup k2 = simA.changes.lookup k2) :
    ∀ a, simA.isdir fs cwd a = true → t.isdir fs cwd a = true := by
  intro a ha
  by_cases hk : simNormpath cwd simA.root a = simNormpath cwd simA.root dst
  · rw [isdir_key_congr fs cwd simA a dst hk] at ha
    rw [ha] at hdir
    cases hdir
  · rw [isdir_congr_lookup fs cwd simA t a hroot (hl _ hk)]
    exact ha

theorem makedirs_again (fs : Fs) (cwd : PyStr) (s simA t : InstallSimulator)
    (head : PyStr) (hc : Posix.CanonicalRoot s.root)
    (hA : (if head ≠ [] then s.makedirs fs cwd head else .ok s) = .ok simA)
    (hu : ∀ a, simA.isdir fs cwd a = true → t.isdir fs cwd a = true) :
    (if head ≠ [] then t.makedirs fs cwd head else .ok t) = .ok t := by
  by_cases hh : head ≠ []
  · rw [if_pos hh] at hA ⊢
    exact makedirsF_stable fs cwd (head.length + 1) head s simA hc hA t hu
  · rw [if_neg hh]

theorem makedirs_if_root (fs : Fs) (cwd : PyStr) (s simA : InstallSimulator)
    (head : PyStr)
    (hA : (if head ≠ [] then s.makedirs fs cwd head else .ok s) = .ok simA) :
    simA.root = s.root := by
  by_cases hh : head ≠ []
  · rw [if_pos hh] at hA
    exact makedirsF_root fs cwd (head.length + 1) head s simA hA
  · rw [if_neg hh] at hA
    obtain rfl := Except.ok.inj hA
    rfl

theorem install_file_eval_same (fs : Fs) (cwd src dst : PyStr)
    (s simA : InstallSimulator)
    (hA : (if (Posix.psplit dst).1 ≠ [] then
      s.makedirs fs cwd (Posix.psplit dst).1 else .ok s) = .ok simA)
    (hdir : simA.isdir fs cwd dst = false)
    (hs1 : simA.same_file fs cwd src dst false = .ok true) :
    s.install_file fs cwd src dst = .ok simA := by
  simp only [InstallSimulator.install_file, hA]
  simp [hdir, hs1]

theorem install_file_eval_keep (fs : Fs) (cwd src dst : PyStr)
    (s simA : InstallSimulator)
    (hA : (if (Posix.psplit dst).1 ≠ [] then
      s.makedirs fs cwd (Posix.psplit dst).1 else .ok s) = .ok simA)
    (hdir : simA.isdir fs cwd dst = false)
    (hs1 : simA.same_file fs cwd src dst false = .ok false)
    (hs2 : (InstallSimulator.mk simA.root (luodSet simA.changes
        (simNormpath cwd simA.root dst)
        (some (Chg.file (Posix.abspath cwd src))))).same_file
        fs cwd src dst true = .ok false) :
    s.install_file fs cwd src dst = .ok (InstallSimulator.mk simA.root
      (luodSet simA.changes (simNormpath cwd simA.root dst)
        (some (Chg.file (Posix.abspath cwd src))))) := by
  simp only [InstallSimulator.install_file, hA]
  simp [hdir, hs1, hs2]

theorem install_file_eval_keep_self (fs : Fs) (cwd src dst : PyStr)
    (T : InstallSimulator)
    (hAT : (if (Posix.psplit dst).1 ≠ [] then
      T.makedirs fs cwd (Posix.psplit dst).1 else .ok T) = .ok T)
    (hdirT : T.isdir fs cwd dst = false)
    (hs1 : T.same_file fs cwd src dst false = .ok false)
    (hch : luodSet T.changes (simNormpath cwd T.root dst)
      (some (Chg.file (Posix.abspath cwd src))) = T.changes)
    (hs2 : T.same_file fs cwd src dst true = .ok false) :
    T.install_file fs cwd src dst = .ok T := by
  have hs2' : (InstallSimulator.mk T.root (luodSet T.changes
      (simNormpath cwd T.root dst)
      (some (Chg.file (Posix.abspath cwd src))))).same_file
      fs cwd src dst true = .ok false := by
    rw [hch]
    exact hs2
  have heval := install_file_eval_keep fs cwd src dst T T hAT hdirT hs1 hs2'
  rw [hch] at heval
  exact heval

theorem install_file_idem (fs : Fs) (cwd : PyStr) (s t : InstallSimulator)
    (src dst : PyStr) (hc : Posix.CanonicalRoot s.root)
    (hcwd : pyStartsWith cwd [Posix.sep] = true)
    (h : s.install_file fs cwd src dst = .ok t) :
    t.install_file fs cwd src dst = .ok t := by
  simp only [InstallSimulator.install_file] at h
  split at h
  next e hA => cases h
  next simA hA =>
    have hrootA : simA.root = s.root :=
      makedirs_if_root fs cwd s simA (Posix.psplit dst).1 hA
    have hcA : Posix.CanonicalRoot simA.root := hrootA ▸ hc
    split at h
    next hdir => cases h
    next hdir =>
      have hdir0 : simA.isdir fs cwd dst = false := by simpa using hdir
      split at h
      next e heq1 => cases h
      next heq1 =>
        obtain rfl := Except.ok.inj h
        exact install_file_eval_same fs cwd src dst simA simA
          (makedirs_again fs cwd s simA simA (Posix.psplit dst).1 hc hA
            (fun a ha => ha)) hdir0 heq1
      next heq1 =>
        split at h
        next e heq2 => cases h
        next heq2 =>
          obtain rfl := Except.ok.inj h
          obtain ⟨x, hsrc, hdst0⟩ := same_file_real_true fs cwd src dst _ heq2
          have hdst : osStat fs cwd (Posix.join simA.root dst) =
              some (FsEntry.file x) := hdst0
          have hlT : (luodDel (luodSet simA.changes
              (simNormpath cwd simA.root dst)
              (some (Chg.file (Posix.abspath cwd src))))
              (simNormpath cwd simA.root dst)).lookup
              (simNormpath cwd simA.root dst) = none :=
            lookup_luodDel_self _ _
          have hlne : ∀ k2, k2 ≠ simNormpath cwd simA.root dst →
              (luodDel (luodSet simA.changes
                (simNormpath cwd simA.root dst)
                (some (Chg.file (Posix.abspath cwd src))))
                (simNormpath cwd simA.root dst)).lookup k2 =
              simA.changes.lookup k2 := fun k2 hk =>
            (lookup_luodDel_ne _ _ _ hk).trans (lookup_luodSet_ne _ _ _ _ hk)
          have hexd : osExists fs cwd (Posix.join simA.root dst) = true := by
            simp [osExists, hdst]
          have hosd : osIsdir fs cwd (Posix.join simA.root dst) = false := by
            simp [osIsdir, hdst]
          have htrans := isdir_transfer fs cwd simA
            (InstallSimulator.mk simA.root (luodDel (luodSet simA.changes
              (simNormpath cwd simA.root dst)
              (some (Chg.file (Posix.abspath cwd src))))
              (simNormpath cwd simA.root dst))) dst hdir0 rfl hlne
          have hAT := makedirs_again fs cwd s simA _ (Posix.psplit dst).1 hc
            hA htrans
          have hdir2 := (isdir_eval_none fs cwd dst
            (InstallSimulator.mk simA.root (luodDel (luodSet simA.changes
              (simNormpath cwd simA.root dst)
              (some (Chg.file (Posix.abspath cwd src))))
              (simNormpath cwd simA.root dst))) hlT).trans
            ((osIsdir_congr fs cwd _ _
              (osCanon_join_key cwd simA.root dst hcA)).trans hosd)
          have hs1' := (same_file_no_entry fs cwd src dst
            (InstallSimulator.mk simA.root (luodDel (luodSet simA.changes
              (simNormpath cwd simA.root dst)
              (some (Chg.file (Posix.abspath cwd src))))
              (simNormpath cwd simA.root dst))) hlT).trans
            (show (if osExists fs cwd (Posix.join simA.root dst) then
                filecmpCmp fs cwd src (Posix.join simA.root dst)
              else Except.ok false) = Except.ok true by
              rw [if_pos hexd]
              simp [filecmpCmp, hsrc, hdst])
          exact install_file_eval_same fs cwd src dst _ _ hAT hdir2 hs1'
        next heq2 =>
          obtain rfl := Except.ok.inj h
          have hlT : (luodSet simA.changes (simNormpath cwd simA.root dst)
              (some (Chg.file (Posix.abspath cwd src)))).lookup
              (simNormpath cwd simA.root dst) =
              some (some (Chg.file (Posix.abspath cwd src))) :=
            lookup_luodSet_self _ _ _
          have hlne : ∀ k2, k2 ≠ simNormpath cwd simA.root dst →
              (luodSet simA.changes (simNormpath cwd simA.root dst)
                (some (Chg.file (Posix.abspath cwd src)))).lookup k2 =
              simA.changes.lookup k2 := fun k2 hk =>
            lookup_luodSet_ne _ _ _ _ hk
          have htrans := isdir_transfer fs cwd simA
            (InstallSimulator.mk simA.root (luodSet simA.changes
              (simNormpath cwd simA.root dst)
              (some (Chg.file (Posix.abspath cwd src))))) dst hdir0 rfl hlne
          have hAT := makedirs_again fs cwd s simA _ (Posix.psplit dst).1 hc
            hA htrans
          have hdir2 : (InstallSimulator.mk simA.root (luodSet simA.changes
              (simNormpath cwd simA.root dst)
              (some (Chg.file (Posix.abspath cwd src))))).isdir fs cwd dst
              = false :=
            isdir_eval_file fs cwd dst (Posix.abspath cwd src)
              (InstallSimulator.mk simA.root (luodSet simA.changes
                (simNormpath cwd simA.root dst)
                (some (Chg.file (Posix.abspath cwd src))))) hlT
          rcases same_file_abspath_entry fs cwd src dst
            (InstallSimulator.mk simA.root (luodSet simA.changes
              (simNormpath cwd simA.root dst)
              (some (Chg.file (Posix.abspath cwd src))))) hcwd hlT with hv | hv
          · exact install_file_eval_same fs cwd src dst _ _ hAT hdir2 hv
          · exact install_file_eval_keep_self fs cwd src dst _ hAT hdir2 hv
              (luodSet_idem simA.changes (simNormpath cwd simA.root dst)
                (some (Chg.file (Posix.abspath cwd src)))) heq2


/-- C6: each planning primitive of the Path Overlay (`install_file`,
`remove_file`, `makedir`, `rmdir`) is idempotent: re-running it with
identical arguments immediately after a successful first call, whatever the
filesystem and starting overlay state, succeeds and leaves the
pending-change sequence exactly as after the first call, adding no pending
entry. -/
theorem c6_planning_primitives_idempotent
    (fs1 fs2 fs3 fs4 : Fs) (cwd1 cwd2 cwd3 cwd4 : PyStr)
    (s1 t1 s2 t2 s3 t3 s4 t4 : InstallSimulator)
    (src dst1 dst2 dst3 dst4 : PyStr)
    (hc1 : Posix.CanonicalRoot s1.root)
    (hc2 : Posix.CanonicalRoot s2.root)
    (hc3 : Posix.CanonicalRoot s3.root)
    (hc4 : Posix.CanonicalRoot s4.root)
    (hcwd4 : pyStartsWith cwd4 [Posix.sep] = true)
    (h1 : s1.makedir fs1 cwd1 dst1 = .ok t1)
    (h2 : s2.rmdir fs2 cwd2 dst2 = .ok t2)
    (h3 : s3.remove_file fs3 cwd3 dst3 = .ok t3)
    (h4 : s4.install_file fs4 cwd4 src dst4 = .ok t4) :
    t1.makedir fs1 cwd1 dst1 = .ok t1 ∧ t2.rmdir fs2 cwd2 dst2 = .ok t2 ∧
      t3.remove_file fs3 cwd3 dst3 = .ok t3 ∧
      t4.install_file fs4 cwd4 src dst4 = .ok t4 :=
  ⟨makedir_idem fs1 cwd1 s1 t1 dst1 hc1 h1,
   rmdir_idem fs2 cwd2 s2 t2 dst2 hc2 h2,
   remove_file_idem fs3 cwd3 s3 t3 dst3 hc3 h3,
   install_file_idem fs4 cwd4 s4 t4 src dst4 hc4 hcwd4 h4⟩

/-- Witness for C6, exercising the entry-creating cases of each primitive:
`makedir` of an absent directory, `rmdir` of an existing empty real
directory, `remove_file` of an existing real file, and `install_file` over
an existing real file with differing content; each first call records a
pending entry and each re-run returns the state of the first run
unchanged. -/
theorem c6_planning_primitives_idempotent_witness :
    (Posix.CanonicalRoot "/r".data ∧
      pyStartsWith "/w".data [Posix.sep] = true ∧
      (InstallSimulator.mk "/r".data []).makedir [("/r".data, FsEntry.dir)]
        "/w".data "d".data =
        .ok (InstallSimulator.mk "/r".data [("d".data, some Chg.dir)]) ∧
      (InstallSimulator.mk "/r".data []).rmdir
        [("/r".data, FsEntry.dir), ("/r/d".data, FsEntry.dir)]
        "/w".data "d".data =
        .ok (InstallSimulator.mk "/r".data
          [("d".data, (none : Option Chg))]) ∧
      (InstallSimulator.mk "/r".data []).remove_file
        [("/r".data, FsEntry.dir),
         ("/r/f".data, FsEntry.file (FileVal.bytes "X".data))]
        "/w".data "f".data =
        .ok (InstallSimulator.mk "/r".data
          [("f".data, (none : Option Chg))]) ∧
      (InstallSimulator.mk "/r".data []).install_file
        [("/r".data, FsEntry.dir),
         ("/r/d".data, FsEntry.file (FileVal.bytes "OLD".data)),
         ("/s".data, FsEntry.file (FileVal.bytes "NEW".data))]
        "/w".data "/s".data "d".data =
        .ok (InstallSimulator.mk "/r".data
          [("d".data, some (Chg.file "/s".data))])) ∧
    ((InstallSimulator.mk "/r".data
        [("d".data, some Chg.dir)]).makedir [("/r".data, FsEntry.dir)]
        "/w".data "d".data =
      .ok (InstallSimulator.mk "/r".data [("d".data, some Chg.dir)]) ∧
      (InstallSimulator.mk "/r".data
        [("d".data, (none : Option Chg))]).rmdir
        [("/r".data, FsEntry.dir), ("/r/d".data, FsEntry.dir)]
        "/w".data "d".data =
        .ok (InstallSimulator.mk "/r".data
          [("d".data, (none : Option Chg))]) ∧
      (InstallSimulator.mk "/r".data
        [("f".data, (none : Option Chg))]).remove_file
        [("/r".data, FsEntry.dir),
         ("/r/f".data, FsEntry.file (FileVal.bytes "X".data))]
        "/w".data "f".data =
        .ok (InstallSimulator.mk "/r".data
          [("f".data, (none : Option Chg))]) ∧
      (InstallSimulator.mk "/r".data
        [("d".data, some (Chg.file "/s".data))]).install_file
        [("/r".data, FsEntry.dir),
         ("/r/d".data, FsEntry.file (FileVal.bytes "OLD".data)),
         ("/s".data, FsEntry.file (FileVal.bytes "NEW".data))]
        "/w".data "/s".data "d".data =
        .ok (InstallSimulator.mk "/r".data
          [("d".data, some (Chg.file "/s".data))])) :=
  ⟨⟨⟨by decide, by decide, by decide⟩, by decide, by rfl, by rfl, by rfl,
    by rfl⟩,
   c6_planning_primitives_idempotent
     [("/r".data, FsEntry.dir)]
     [("/r".data, FsEntry.dir), ("/r/d".data, FsEntry.dir)]
     [("/r".data, FsEntry.dir),
      ("/r/f".data, FsEntry.file (FileVal.bytes "X".data))]
     [("/r".data, FsEntry.dir),
      ("/r/d".data, FsEntry.file (FileVal.bytes "OLD".data)),
      ("/s".data, FsEntry.file (FileVal.bytes "NEW".data))]
     "/w".data "/w".data "/w".data "/w".data
     (InstallSimulator.mk "/r".data [])
     (InstallSimulator.mk "/r".data [("d".data, some Chg.dir)])
     (InstallSimulator.mk "/r".data [])
     (InstallSimulator.mk "/r".data [("d".data, (none : Option Chg))])
     (InstallSimulator.mk "/r".data [])
     (InstallSimulator.mk "/r".data [("f".data, (none : Option Chg))])
     (InstallSimulator.mk "/r".data [])
     (InstallSimulator.mk "/r".data [("d".data, some (Chg.file "/s".data))])
     "/s".data "d".data "d".data "f".data "d".data
     ⟨by decide, by decide, by decide⟩ ⟨by decide, by decide, by decide⟩
     ⟨by decide, by decide, by decide⟩ ⟨by decide, by decide, by decide⟩
     (by decide) (by rfl) (by rfl) (by rfl) (by rfl)⟩

/-- C5: `listdir` does not return the names of surviving real children: in
the on-disk loop the code appends `key` (the queried path) instead of
`leaf`, so listing a directory `d` whose only real child is `a` yields
`["d"]` where the specified union would be `["a"]`. -/
theorem c5_listdir_appends_key_not_leaf :
    (InstallSimulator.mk "/r".data []).listdir
      [("/r".data, FsEntry.dir), ("/r/d".data, FsEntry.dir),
       ("/r/d/a".data, FsEntry.file (FileVal.bytes "A".data))]
      "/w".data "d".data = ["d".data] ∧ "d".data ≠ "a".data :=
  ⟨by rfl, by decide⟩

/-- C10: a successful commit leaves the pending-change sequence empty (the
simulator is reset), so an immediately following `summarize` finds no
planned changes and returns `false` with no lines. -/
theorem c10_commit_clears_pending (fs0 : Fs) (cwd : PyStr) (ins0 : Installer)
    (res : CommitResult) (h : ins0.commit fs0 cwd = .ok res) :
    res.ins.sim.changes = [] ∧ res.ins.summarize res.fs cwd = (false, []) := by
  simp only [Installer.commit] at h
  split at h
  next e heq => cases h
  next data heq =>
    split at h
    next hne => cases h
    next hne =>
      split at h
      next e heq2 => cases h
      next r heq2 =>
        obtain ⟨fsEnd, metaEnd, printed, applied, record⟩ := r
        obtain rfl := Except.ok.inj h
        exact ⟨rfl, rfl⟩

/-- Witness for C10: a commit of a single planned `mkdir` completes, after
which the pending changes are empty and `summarize` reports nothing. -/
theorem c10_commit_clears_pending_witness :
    (Installer.mk "/r".data (InstallSimulator.mk "/r".data
        [("d".data, some Chg.dir)]) "/r/m".data (Meta.mk 0 []) []).commit
      [("/r".data, FsEntry.dir)] "/w".data =
      .ok (CommitResult.mk
        (Installer.mk "/r".data (InstallSimulator.mk "/r".data [])
          "/r/m".data (Meta.mk 0 [("d".data, "dir".data)]) [])
        [("/r".data, FsEntry.dir),
         ("/r/m".data,
           FsEntry.file (FileVal.jsonMeta (Meta.mk 0 [("d".data, "dir".data)]))),
         ("/r/d".data, FsEntry.dir)]
        [("      mkdir    ".data, "d".data)]
        [("d".data, some Chg.dir)]
        [Meta.mk 0 [], Meta.mk 0 [("d".data, "dir".data)]]) ∧
    (CommitResult.mk
        (Installer.mk "/r".data (InstallSimulator.mk "/r".data [])
          "/r/m".data (Meta.mk 0 [("d".data, "dir".data)]) [])
        [("/r".data, FsEntry.dir),
         ("/r/m".data,
           FsEntry.file (FileVal.jsonMeta (Meta.mk 0 [("d".data, "dir".data)]))),
         ("/r/d".data, FsEntry.dir)]
        [("      mkdir    ".data, "d".data)]
        [("d".data, some Chg.dir)]
        [Meta.mk 0 [], Meta.mk 0 [("d".data, "dir".data)]]).ins.sim.changes
      = [] ∧
    (CommitResult.mk
        (Installer.mk "/r".data (InstallSimulator.mk "/r".data [])
          "/r/m".data (Meta.mk 0 [("d".data, "dir".data)]) [])
        [("/r".data, FsEntry.dir),
         ("/r/m".data,
           FsEntry.file (FileVal.jsonMeta (Meta.mk 0 [("d".data, "dir".data)]))),
         ("/r/d".data, FsEntry.dir)]
        [("      mkdir    ".data, "d".data)]
        [("d".data, some Chg.dir)]
        [Meta.mk 0 [], Meta.mk 0 [("d".data, "dir".data)]]).ins.summarize
      (CommitResult.mk
        (Installer.mk "/r".data (InstallSimulator.mk "/r".data [])
          "/r/m".data (Meta.mk 0 [("d".data, "dir".data)]) [])
        [("/r".data, FsEntry.dir),
         ("/r/m".data,
           FsEntry.file (FileVal.jsonMeta (Meta.mk 0 [("d".data, "dir".data)]))),
         ("/r/d".data, FsEntry.dir)]
        [("      mkdir    ".data, "d".data)]
        [("d".data, some Chg.dir)]
        [Meta.mk 0 [], Meta.mk 0 [("d".data, "dir".data)]]).fs "/w".data
      = (false, []) :=
  ⟨by rfl,
   (c10_commit_clears_pending [("/r".data, FsEntry.dir)] "/w".data
     (Installer.mk "/r".data (InstallSimulator.mk "/r".data
       [("d".data, some Chg.dir)]) "/r/m".data (Meta.mk 0 []) []) _
     (by rfl)).1,
   (c10_commit_clears_pending [("/r".data, FsEntry.dir)] "/w".data
     (Installer.mk "/r".data (InstallSimulator.mk "/r".data
       [("d".data, some Chg.dir)]) "/r/m".data (Meta.mk 0 []) []) _
     (by rfl)).2⟩

theorem lookup_map_replace (m : Fs) (p q : PyStr) (e : FsEntry) (h : q ≠ p) :
    (m.map (fun kv => if kv.1 = p then (p, e) else kv)).lookup q =
      m.lookup q := by
  induction m with
  | nil => rfl
  | cons kv rest ih =>
    by_cases h2 : kv.1 = p
    · rw [List.map_cons, if_pos h2, lookup_cons_eqn, lookup_cons_eqn,
        if_neg h, if_neg (fun hq => h (hq.trans h2))]
      exact ih
    · rw [List.map_cons, if_neg h2, lookup_cons_eqn, lookup_cons_eqn]
      by_cases h3 : q = kv.1
      · rw [if_pos h3, if_pos h3]
      · rw [if_neg h3, if_neg h3]
        exact ih

theorem lookup_map_replace_self (m : Fs) (p : PyStr) (e : FsEntry)
    (h : (m.lookup p).isSome) :
    (m.map (fun kv => if kv.1 = p then (p, e) else kv)).lookup p = some e := by
  induction m with
  | nil => exact Bool.noConfusion h
  | cons kv rest ih =>
    by_cases h2 : kv.1 = p
    · rw [List.map_cons, if_pos h2, lookup_cons_eqn, if_pos rfl]
    · rw [lookup_cons_eqn, if_neg (fun hq => h2 hq.symm)] at h
      rw [List.map_cons, if_neg h2, lookup_cons_eqn,
        if_neg (fun hq => h2 hq.symm)]
      exact ih h

theorem lookup_append_single_ne {α : Type} (m : List (PyStr × α))
    (p q : PyStr) (e : α) (h : q ≠ p) :
    (m ++ [(p, e)]).lookup q = m.lookup q := by
  cases hm : m.lookup q with
  | some b => exact lookup_append_left m [(p, e)] q b hm
  | none =>
    rw [lookup_append_right m [(p, e)] q hm, lookup_cons_eqn, if_neg h]
    rfl

theorem osStat_osWrite_ne (fs : Fs) (cwd p q : PyStr) (e : FsEntry)
    (h : osCanon cwd q ≠ osCanon cwd p) :
    osStat (osWrite fs cwd p e) cwd q = osStat fs cwd q := by
  rw [osStat, osWrite, fsSet, osStat]
  split_ifs with h1
  · exact lookup_map_replace fs (osCanon cwd p) (osCanon cwd q) e h
  · exact lookup_append_single_ne fs (osCanon cwd p) (osCanon cwd q) e h

theorem osStat_osWrite_self (fs : Fs) (cwd p : PyStr) (e : FsEntry) :
    osStat (osWrite fs cwd p e) cwd p = some e := by
  rw [osStat, osWrite, fsSet]
  split_ifs with h1
  · exact lookup_map_replace_self fs (osCanon cwd p) e h1
  · rw [lookup_append_right fs [(osCanon cwd p, e)] (osCanon cwd p)
      (Option.not_isSome_iff_eq_none.mp h1), lookup_cons_eqn, if_pos rfl]

theorem osStat_osRemovePath_ne (fs : Fs) (cwd p q : PyStr)
    (h : osCanon cwd q ≠ osCanon cwd p) :
    osStat (osRemovePath fs cwd p) cwd q = osStat fs cwd q := by
  rw [osStat, osRemovePath, osStat]
  exact lookup_filterNe fs (osCanon cwd p) (osCanon cwd q) h

theorem osIsdir_stat_congr (fs fs0 : Fs) (cwd p : PyStr)
    (h : osStat fs cwd p = osStat fs0 cwd p) :
    osIsdir fs cwd p = osIsdir fs0 cwd p := by
  rw [osIsdir, osIsdir, h]

theorem osIsfile_stat_congr (fs fs0 : Fs) (cwd p : PyStr)
    (h : osStat fs cwd p = osStat fs0 cwd p) :
    osIsfile fs cwd p = osIsfile fs0 cwd p := by
  rw [osIsfile, osIsfile, h]

theorem sim_label_congr (ins0 : Installer) (fs fs0 : Fs) (cwd k : PyStr)
    (v : Option Chg)
    (hstat : osStat fs cwd (Posix.join ins0.root k) =
      osStat fs0 cwd (Posix.join ins0.root k)) :
    ins0.sim_label fs cwd k v = ins0.sim_label fs0 cwd k v := by
  cases v with
  | none =>
    simp only [Installer.sim_label]
    rw [osIsdir_stat_congr fs fs0 cwd _ hstat]
  | some c =>
    cases c with
    | file s =>
      simp only [Installer.sim_label]
      rw [osIsfile_stat_congr fs fs0 cwd _ hstat]
    | dir => rfl

theorem summarize_snd (ins : Installer) (fs : Fs) (cwd : PyStr) :
    (ins.summarize fs cwd).2 =
      ins.sim.changes.map (fun kv => (ins.sim_label fs cwd kv.1 kv.2, kv.1)) := by
  rw [Installer.summarize]
  split_ifs with h1
  · rfl
  · simp only [ne_eq, not_not] at h1
    rw [h1]
    rfl


theorem commitStep_ok (ins0 : Installer) (cwd : PyStr) (fs : Fs) (meta : Meta)
    (printed : List (PyStr × PyStr)) (applied : List (PyStr × Option Chg))
    (record : List Meta) (kv : PyStr × Option Chg)
    (out : Fs × Meta × List (PyStr × PyStr) × List (PyStr × Option Chg) × List Meta)
    (h : commitStep ins0 cwd (fs, meta, printed, applied, record) kv = .ok out) :
    ∃ fs2 meta2,
      out = (osWrite fs2 cwd ins0.metapath (.file (.jsonMeta meta2)), meta2,
        printed ++ [(ins0.sim_label fs cwd kv.1 kv.2, kv.1)],
        applied ++ [kv], record ++ [meta2]) ∧
      (∀ q, osCanon cwd q ≠ osCanon cwd (Posix.join ins0.root kv.1) →
        osStat fs2 cwd q = osStat fs cwd q) ∧
      (∀ s fv, kv.2 = some (Chg.file s) →
        osStat fs cwd s = some (FsEntry.file fv) →
        osStat fs2 cwd (Posix.join ins0.root kv.1) = some (FsEntry.file fv)) := by
  simp only [commitStep] at h
  split at h
  next e heq => cases h
  next fs2 meta2 heq =>
    obtain rfl := Except.ok.inj h
    have hmain : (∀ q, osCanon cwd q ≠ osCanon cwd (Posix.join ins0.root kv.1) →
        osStat fs2 cwd q = osStat fs cwd q) ∧
        (∀ s fv, kv.2 = some (Chg.file s) →
          osStat fs cwd s = some (FsEntry.file fv) →
          osStat fs2 cwd (Posix.join ins0.root kv.1) =
            some (FsEntry.file fv)) := by
      split at heq
      next hv =>
        split at heq
        next e heq3 => cases heq
        next fs2' heq3 =>
          obtain ⟨rfl, rfl⟩ := Prod.mk.inj (Except.ok.inj heq)
          constructor
          · intro q hq
            split at heq3
            next h1 =>
              split at heq3
              next h2 => cases heq3
              next h2 =>
                obtain rfl := Except.ok.inj heq3
                exact osStat_osRemovePath_ne fs cwd _ q hq
            next h1 =>
              split at heq3
              next h2 =>
                obtain rfl := Except.ok.inj heq3
                exact osStat_osRemovePath_ne fs cwd _ q hq
              next h2 =>
                obtain rfl := Except.ok.inj heq3
                rfl
          · intro s fv hkv _
            rw [hv] at hkv
            cases hkv
      next s hv =>
        split at heq
        next fv heq4 =>
          split at heq
          next h1 => cases heq
          next h1 =>
            split at heq
            next h2 => cases heq
            next h2 =>
              obtain ⟨rfl, rfl⟩ := Prod.mk.inj (Except.ok.inj heq)
              constructor
              · intro q hq
                exact osStat_osWrite_ne fs cwd _ q _ hq
              · intro s' fv' hkv hs'
                rw [hv] at hkv
                obtain rfl := Chg.file.inj (Option.some.inj hkv)
                rw [heq4] at hs'
                obtain rfl := FsEntry.file.inj (Option.some.inj hs')
                exact osStat_osWrite_self fs cwd _ _
        next heq4 => cases heq
      next hv =>
        split at heq
        next h1 => cases heq
        next h1 =>
          split at heq
          next h2 => cases heq
          next h2 =>
            obtain ⟨rfl, rfl⟩ := Prod.mk.inj (Except.ok.inj heq)
            constructor
            · intro q hq
              exact osStat_osWrite_ne fs cwd _ q _ hq
            · intro s fv hkv _
              rw [hv] at hkv
              simp at hkv
    exact ⟨fs2, meta2, rfl, hmain.1, hmain.2⟩

theorem commit_fold_record (ins0 : Installer) (cwd : PyStr) :
    ∀ (L : List (PyStr × Option Chg)) (fs : Fs) (meta : Meta)
      (printed : List (PyStr × PyStr)) (applied : List (PyStr × Option Chg))
      (record : List Meta)
      (out : Fs × Meta × List (PyStr × PyStr) × List (PyStr × Option Chg) × List Meta),
      L.foldlM (commitStep ins0 cwd) (fs, meta, printed, applied, record) =
        .ok out →
      ∃ ms : List Meta, out.2.2.2.2 = record ++ ms ∧ ms.length = L.length := by
  intro L
  induction L with
  | nil =>
    intro fs meta printed applied record out h
    obtain rfl := Except.ok.inj h
    exact ⟨[], by simp, rfl⟩
  | cons kv L ih =>
    intro fs meta printed applied record out h
    rw [List.foldlM_cons] at h
    cases hstep : commitStep ins0 cwd (fs, meta, printed, applied, record) kv with
    | error e => rw [hstep] at h; cases h
    | ok st1 =>
      rw [hstep] at h
      obtain ⟨fs2, meta2, hout, _, _⟩ :=
        commitStep_ok ins0 cwd fs meta printed applied record kv st1 hstep
      subst hout
      obtain ⟨ms, hms, hlen⟩ := ih _ _ _ _ _ out h
      exact ⟨meta2 :: ms, by rw [hms]; simp, by simp [hlen]⟩

theorem commit_fold_spec (ins0 : Installer) (cwd : PyStr) (fs0 : Fs) :
    ∀ (L : List (PyStr × Option Chg)) (fs : Fs) (meta : Meta)
      (printed : List (PyStr × PyStr)) (applied : List (PyStr × Option Chg))
      (record : List Meta)
      (out : Fs × Meta × List (PyStr × PyStr) × List (PyStr × Option Chg) × List Meta),
      (∀ kv ∈ L, osStat fs cwd (Posix.join ins0.root kv.1) =
        osStat fs0 cwd (Posix.join ins0.root kv.1)) →
      (L.map (fun kv => osCanon cwd (Posix.join ins0.root kv.1))).Nodup →
      (∀ kv ∈ L, osCanon cwd (Posix.join ins0.root kv.1) ≠
        osCanon cwd ins0.metapath) →
      L.foldlM (commitStep ins0 cwd) (fs, meta, printed, applied, record) =
        .ok out →
      out.2.2.1 = printed ++ L.map (fun kv =>
        (ins0.sim_label fs0 cwd kv.1 kv.2, kv.1)) ∧
      out.2.2.2.1 = applied ++ L := by
  intro L
  induction L with
  | nil =>
    intro fs meta printed applied record out _ _ _ h
    obtain rfl := Except.ok.inj h
    exact ⟨by simp, by simp⟩
  | cons kv L ih =>
    intro fs meta printed applied record out hstat hnodup hmeta h
    rw [List.foldlM_cons] at h
    cases hstep : commitStep ins0 cwd (fs, meta, printed, applied, record) kv with
    | error e => rw [hstep] at h; cases h
    | ok st1 =>
      rw [hstep] at h
      obtain ⟨fs2, meta2, hout, hpres, _⟩ :=
        commitStep_ok ins0 cwd fs meta printed applied record kv st1 hstep
      subst hout
      have hlabel : ins0.sim_label fs cwd kv.1 kv.2 =
          ins0.sim_label fs0 cwd kv.1 kv.2 :=
        sim_label_congr ins0 fs fs0 cwd kv.1 kv.2
          (hstat kv (List.mem_cons_self kv L))
      have hstat' : ∀ l ∈ L,
          osStat (osWrite fs2 cwd ins0.metapath (.file (.jsonMeta meta2))) cwd
            (Posix.join ins0.root l.1) =
          osStat fs0 cwd (Posix.join ins0.root l.1) := by
        intro l hl
        have hne_meta : osCanon cwd (Posix.join ins0.root l.1) ≠
            osCanon cwd ins0.metapath := hmeta l (List.mem_cons_of_mem kv hl)
        have hne_kv : osCanon cwd (Posix.join ins0.root l.1) ≠
            osCanon cwd (Posix.join ins0.root kv.1) := by
          intro hcontra
          exact (List.nodup_cons.mp hnodup).1
            (List.mem_map.mpr ⟨l, hl, hcontra⟩)
        rw [osStat_osWrite_ne _ cwd _ _ _ hne_meta, hpres _ hne_kv]
        exact hstat l (List.mem_cons_of_mem kv hl)
      obtain ⟨h1, h2⟩ := ih _ _ _ _ _ out hstat' (List.nodup_cons.mp hnodup).2
        (fun l hl => hmeta l (List.mem_cons_of_mem kv hl)) h
      constructor
      · rw [h1, hlabel]
        simp
      · rw [h2]
        simp


/-- C1 (corrected): when every planned change targets a kernel path distinct
from the metafile's and from every other change's target, a completed commit
applies exactly the planned change sequence and prints exactly the lines the
preview (`summarize`) prints on the initial filesystem, in order and
content. -/
theorem c1_commit_matches_preview (fs0 : Fs) (cwd : PyStr) (ins0 : Installer)
    (res : CommitResult)
    (hnodup : (ins0.sim.changes.map (fun kv =>
      osCanon cwd (Posix.join ins0.root kv.1))).Nodup)
    (hmeta : ∀ kv ∈ ins0.sim.changes,
      osCanon cwd (Posix.join ins0.root kv.1) ≠ osCanon cwd ins0.metapath)
    (h : ins0.commit fs0 cwd = .ok res) :
    res.applied = ins0.sim.changes ∧
      res.printed = (ins0.summarize fs0 cwd).2 := by
  simp only [Installer.commit] at h
  split at h
  next e heq => cases h
  next data heq =>
    split at h
    next hne => cases h
    next hne =>
      split at h
      next e heq2 => cases h
      next r heq2 =>
        obtain ⟨fsEnd, metaEnd, printed, applied, record⟩ := r
        obtain rfl := Except.ok.inj h
        have hstat1 : ∀ kv ∈ ins0.sim.changes,
            osStat (osWrite fs0 cwd ins0.metapath
                (.file (.jsonMeta ins0.meta))) cwd
              (Posix.join ins0.root kv.1) =
            osStat fs0 cwd (Posix.join ins0.root kv.1) := fun kv hkv =>
          osStat_osWrite_ne fs0 cwd _ _ _ (hmeta kv hkv)
        obtain ⟨h1, h2⟩ := commit_fold_spec ins0 cwd fs0 ins0.sim.changes _
          ins0.meta [] [] [ins0.meta]
          (fsEnd, metaEnd, printed, applied, record) hstat1 hnodup hmeta heq2
        refine ⟨by simpa using h2, ?_⟩
        rw [summarize_snd]
        simpa using h1

/-- Witness for C1: a commit of one planned `mkdir d` under root `/r`
applies exactly that change and prints exactly the preview's line. -/
theorem c1_commit_matches_preview_witness :
    ((["d".data].map (fun k =>
        osCanon "/w".data (Posix.join "/r".data k))).Nodup ∧
      osCanon "/w".data (Posix.join "/r".data "d".data) ≠
        osCanon "/w".data "/r/meta1".data) ∧
    (Installer.mk "/r".data (InstallSimulator.mk "/r".data
        [("d".data, some Chg.dir)]) "/r/meta1".data (Meta.mk 0 []) []).commit
      [("/r".data, FsEntry.dir)] "/w".data =
      .ok (CommitResult.mk
        (Installer.mk "/r".data (InstallSimulator.mk "/r".data [])
          "/r/meta1".data (Meta.mk 0 [("d".data, "dir".data)]) [])
        [("/r".data, FsEntry.dir),
         ("/r/meta1".data,
           FsEntry.file (FileVal.jsonMeta (Meta.mk 0 [("d".data, "dir".data)]))),
         ("/r/d".data, FsEntry.dir)]
        [("      mkdir    ".data, "d".data)]
        [("d".data, some Chg.dir)]
        [Meta.mk 0 [], Meta.mk 0 [("d".data, "dir".data)]]) ∧
    [("d".data, (some Chg.dir : Option Chg))] =
      (Installer.mk "/r".data (InstallSimulator.mk "/r".data
        [("d".data, some Chg.dir)]) "/r/meta1".data
        (Meta.mk 0 []) []).sim.changes ∧
    [("      mkdir    ".data, "d".data)] =
      ((Installer.mk "/r".data (InstallSimulator.mk "/r".data
        [("d".data, some Chg.dir)]) "/r/meta1".data (Meta.mk 0 []) []).summarize
        [("/r".data, FsEntry.dir)] "/w".data).2 :=
  ⟨⟨by decide, by decide⟩, by rfl,
   (c1_commit_matches_preview [("/r".data, FsEntry.dir)] "/w".data
     (Installer.mk "/r".data (InstallSimulator.mk "/r".data
       [("d".data, some Chg.dir)]) "/r/meta1".data (Meta.mk 0 []) []) _
     (by decide) (by decide) (by rfl)).1,
   (c1_commit_matches_preview [("/r".data, FsEntry.dir)] "/w".data
     (Installer.mk "/r".data (InstallSimulator.mk "/r".data
       [("d".data, some Chg.dir)]) "/r/meta1".data (Meta.mk 0 []) []) _
     (by decide) (by decide) (by rfl)).2⟩

/-- Counterexample for C1 as stated: when a planned install targets the
metafile itself, the initial dump that commit performs before the loop makes
the target exist, so commit prints `[!!] overwrite` where the preview had
printed `install`: the printed sequences differ. -/
theorem c1_metafile_label_counterexample :
    ((Installer.mk "/r".data (InstallSimulator.mk "/r".data
        [("overviewer-bg3-mods.meta".data, some (Chg.file "/s".data))])
        "/r/overviewer-bg3-mods.meta".data (Meta.mk 0 []) []).commit
      [("/r".data, FsEntry.dir),
       ("/s".data, FsEntry.file (FileVal.bytes "Z".data))] "/w".data).map
        (fun r => r.printed) =
      .ok [(" [!!] overwrite".data, "overviewer-bg3-mods.meta".data)] ∧
    ((Installer.mk "/r".data (InstallSimulator.mk "/r".data
        [("overviewer-bg3-mods.meta".data, some (Chg.file "/s".data))])
        "/r/overviewer-bg3-mods.meta".data (Meta.mk 0 []) []).summarize
      [("/r".data, FsEntry.dir),
       ("/s".data, FsEntry.file (FileVal.bytes "Z".data))] "/w".data).2 =
      [("      install  ".data, "overviewer-bg3-mods.meta".data)] ∧
    (" [!!] overwrite".data : PyStr) ≠ "      install  ".data :=
  ⟨by rfl, by rfl, by decide⟩

/-- C2 (corrected): the metafile is not an append-only operation log; it is
rewritten wholesale.  What holds is: a completed commit durably writes a
sequence of full metadata documents, one initial write plus exactly one
rewrite per applied operation, the first document being the pre-commit
metadata. -/
theorem c2_metafile_rewrites (fs0 : Fs) (cwd : PyStr) (ins0 : Installer)
    (res : CommitResult) (h : ins0.commit fs0 cwd = .ok res) :
    res.record.length = ins0.sim.changes.length + 1 ∧
      res.record.head? = some ins0.meta := by
  simp only [Installer.commit] at h
  split at h
  next e heq => cases h
  next data heq =>
    split at h
    next hne => cases h
    next hne =>
      split at h
      next e heq2 => cases h
      next r heq2 =>
        obtain ⟨fsEnd, metaEnd, printed, applied, record⟩ := r
        obtain rfl := Except.ok.inj h
        obtain ⟨ms, hms, hlen⟩ := commit_fold_record ins0 cwd
          ins0.sim.changes _ ins0.meta [] [] [ins0.meta]
          (fsEnd, metaEnd, printed, applied, record) heq2
        constructor
        · show record.length = ins0.sim.changes.length + 1
          simp only at hms
          rw [hms, List.singleton_append, List.length_cons, hlen]
        · show record.head? = some ins0.meta
          simp only at hms
          rw [hms, List.singleton_append, List.head?_cons]

/-- Witness for C2: a commit of one planned `mkdir` writes two full
documents, the pre-commit one first. -/
theorem c2_metafile_rewrites_witness :
    (Installer.mk "/r".data (InstallSimulator.mk "/r".data
        [("d".data, some Chg.dir)]) "/r/meta2".data (Meta.mk 0 []) []).commit
      [("/r".data, FsEntry.dir)] "/w".data =
      .ok (CommitResult.mk
        (Installer.mk "/r".data (InstallSimulator.mk "/r".data [])
          "/r/meta2".data (Meta.mk 0 [("d".data, "dir".data)]) [])
        [("/r".data, FsEntry.dir),
         ("/r/meta2".data,
           FsEntry.file (FileVal.jsonMeta (Meta.mk 0 [("d".data, "dir".data)]))),
         ("/r/d".data, FsEntry.dir)]
        [("      mkdir    ".data, "d".data)]
        [("d".data, some Chg.dir)]
        [Meta.mk 0 [], Meta.mk 0 [("d".data, "dir".data)]]) ∧
    ([Meta.mk 0 [], Meta.mk 0 [("d".data, "dir".data)]] : List Meta).length =
      [("d".data, (some Chg.dir : Option Chg))].length + 1 ∧
    ([Meta.mk 0 [], Meta.mk 0 [("d".data, "dir".data)]] : List Meta).head? =
      some (Meta.mk 0 []) :=
  ⟨by rfl,
   (c2_metafile_rewrites [("/r".data, FsEntry.dir)] "/w".data
     (Installer.mk "/r".data (InstallSimulator.mk "/r".data
       [("d".data, some Chg.dir)]) "/r/meta2".data (Meta.mk 0 []) []) _
     (by rfl)).1,
   (c2_metafile_rewrites [("/r".data, FsEntry.dir)] "/w".data
     (Installer.mk "/r".data (InstallSimulator.mk "/r".data
       [("d".data, some Chg.dir)]) "/r/meta2".data (Meta.mk 0 []) []) _
     (by rfl)).2⟩

/-- Counterexample for C2 as stated: the successive documents written to the
metafile during a one-operation commit are not extensions of one another —
the second serialized document does not have the first as a prefix, so the
writes are wholesale rewrites, not durable appends. -/
theorem c2_record_not_append_only :
    ((Installer.mk "/r".data (InstallSimulator.mk "/r".data
        [("d".data, some Chg.dir)]) "/r/meta2b".data (Meta.mk 0 []) []).commit
      [("/r".data, FsEntry.dir)] "/w".data).map (fun r => r.record) =
      .ok [Meta.mk 0 [], Meta.mk 0 [("d".data, "dir".data)]] ∧
    (metaDump (Meta.mk 0 [])).isPrefixOf
      (metaDump (Meta.mk 0 [("d".data, "dir".data)])) = false :=
  ⟨by rfl, by decide⟩

/-- C3 (corrected): an install step whose destination already exists as a
file with different content overwrites it in place: the destination entry
becomes the source's content, the old content is gone from that path, no
other path is touched (no backup copy is made anywhere), and the only
operation recorded is the install itself — there is no move/backup step. -/
theorem c3_overwrite_in_place (ins0 : Installer) (cwd : PyStr) (fs : Fs)
    (meta : Meta) (printed : List (PyStr × PyStr))
    (applied : List (PyStr × Option Chg)) (record : List Meta)
    (k s : PyStr) (fv gv : FileVal)
    (out : Fs × Meta × List (PyStr × PyStr) × List (PyStr × Option Chg) × List Meta)
    (hsrc : osStat fs cwd s = some (FsEntry.file fv))
    (_hold : osStat fs cwd (Posix.join ins0.root k) = some (FsEntry.file gv))
    (hdiff : gv ≠ fv)
    (hnm : osCanon cwd (Posix.join ins0.root k) ≠ osCanon cwd ins0.metapath)
    (h : commitStep ins0 cwd (fs, meta, printed, applied, record)
      (k, some (Chg.file s)) = .ok out) :
    osStat out.1 cwd (Posix.join ins0.root k) = some (FsEntry.file fv) ∧
    osStat out.1 cwd (Posix.join ins0.root k) ≠ some (FsEntry.file gv) ∧
    (∀ q, osCanon cwd q ≠ osCanon cwd (Posix.join ins0.root k) →
      osCanon cwd q ≠ osCanon cwd ins0.metapath →
      osStat out.1 cwd q = osStat fs cwd q) ∧
    out.2.2.2.1 = applied ++ [(k, some (Chg.file s))] := by
  obtain ⟨fs2, meta2, hout, hpres, hinst⟩ := commitStep_ok ins0 cwd fs meta
    printed applied record (k, some (Chg.file s)) out h
  subst hout
  have hstat2 : osStat fs2 cwd (Posix.join ins0.root k) =
      some (FsEntry.file fv) := hinst s fv rfl hsrc
  refine ⟨?_, ?_, ?_, rfl⟩
  · show osStat (osWrite fs2 cwd ins0.metapath
      (FsEntry.file (FileVal.jsonMeta meta2))) cwd
      (Posix.join ins0.root k) = some (FsEntry.file fv)
    rw [osStat_osWrite_ne fs2 cwd ins0.metapath (Posix.join ins0.root k)
      (FsEntry.file (FileVal.jsonMeta meta2)) hnm]
    exact hstat2
  · show osStat (osWrite fs2 cwd ins0.metapath
      (FsEntry.file (FileVal.jsonMeta meta2))) cwd
      (Posix.join ins0.root k) ≠ some (FsEntry.file gv)
    rw [osStat_osWrite_ne fs2 cwd ins0.metapath (Posix.join ins0.root k)
      (FsEntry.file (FileVal.jsonMeta meta2)) hnm, hstat2]
    exact fun hcontra =>
      hdiff (FsEntry.file.inj (Option.some.inj hcontra)).symm
  · intro q hq hqm
    show osStat (osWrite fs2 cwd ins0.metapath
      (FsEntry.file (FileVal.jsonMeta meta2))) cwd q = osStat fs cwd q
    rw [osStat_osWrite_ne fs2 cwd ins0.metapath q
      (FsEntry.file (FileVal.jsonMeta meta2)) hqm]
    exact hpres q hq

/-- Witness for C3: installing `/s` (content NEW) over `/r/d` (content OLD)
replaces the destination's content in place; an unrelated path such as
`/r/backup` is untouched and the applied sequence is the single install. -/
theorem c3_overwrite_in_place_witness :
    osStat [("/r".data, FsEntry.dir),
        ("/r/d".data, FsEntry.file (FileVal.bytes "OLD".data)),
        ("/s".data, FsEntry.file (FileVal.bytes "NEW".data))] "/w".data
        "/s".data = some (FsEntry.file (FileVal.bytes "NEW".data)) ∧
    osStat [("/r".data, FsEntry.dir),
        ("/r/d".data, FsEntry.file (FileVal.bytes "OLD".data)),
        ("/s".data, FsEntry.file (FileVal.bytes "NEW".data))] "/w".data
        (Posix.join "/r".data "d".data) =
      some (FsEntry.file (FileVal.bytes "OLD".data)) ∧
    osStat ([("/r".data, FsEntry.dir),
        ("/r/d".data, FsEntry.file (FileVal.bytes "NEW".data)),
        ("/s".data, FsEntry.file (FileVal.bytes "NEW".data)),
        ("/r/meta3".data, FsEntry.file (FileVal.jsonMeta
          (Meta.mk 0 [("d".data, "sha1:NEW".data)])))] : Fs) "/w".data
        (Posix.join "/r".data "d".data) =
      some (FsEntry.file (FileVal.bytes "NEW".data)) ∧
    osStat ([("/r".data, FsEntry.dir),
        ("/r/d".data, FsEntry.file (FileVal.bytes "NEW".data)),
        ("/s".data, FsEntry.file (FileVal.bytes "NEW".data)),
        ("/r/meta3".data, FsEntry.file (FileVal.jsonMeta
          (Meta.mk 0 [("d".data, "sha1:NEW".data)])))] : Fs) "/w".data
        "/r/backup".data =
      osStat [("/r".data, FsEntry.dir),
        ("/r/d".data, FsEntry.file (FileVal.bytes "OLD".data)),
        ("/s".data, FsEntry.file (FileVal.bytes "NEW".data))] "/w".data
        "/r/backup".data :=
  ⟨by rfl, by rfl,
   (c3_overwrite_in_place (Installer.mk "/r".data
       (InstallSimulator.mk "/r".data []) "/r/meta3".data (Meta.mk 0 []) [])
     "/w".data
     [("/r".data, FsEntry.dir),
      ("/r/d".data, FsEntry.file (FileVal.bytes "OLD".data)),
      ("/s".data, FsEntry.file (FileVal.bytes "NEW".data))]
     (Meta.mk 0 []) [] [] [Meta.mk 0 []] "d".data "/s".data
     (FileVal.bytes "NEW".data) (FileVal.bytes "OLD".data)
     ([("/r".data, FsEntry.dir),
       ("/r/d".data, FsEntry.file (FileVal.bytes "NEW".data)),
       ("/s".data, FsEntry.file (FileVal.bytes "NEW".data)),
       ("/r/meta3".data, FsEntry.file (FileVal.jsonMeta
         (Meta.mk 0 [("d".data, "sha1:NEW".data)])))],
      Meta.mk 0 [("d".data, "sha1:NEW".data)],
      [(" [!!] overwrite".data, "d".data)],
      [("d".data, some (Chg.file "/s".data))],
      [Meta.mk 0 [], Meta.mk 0 [("d".data, "sha1:NEW".data)]])
     (by rfl) (by rfl) (by decide) (by decide) (by rfl)).1,
   (c3_overwrite_in_place (Installer.mk "/r".data
       (InstallSimulator.mk "/r".data []) "/r/meta3".data (Meta.mk 0 []) [])
     "/w".data
     [("/r".data, FsEntry.dir),
      ("/r/d".data, FsEntry.file (FileVal.bytes "OLD".data)),
      ("/s".data, FsEntry.file (FileVal.bytes "NEW".data))]
     (Meta.mk 0 []) [] [] [Meta.mk 0 []] "d".data "/s".data
     (FileVal.bytes "NEW".data) (FileVal.bytes "OLD".data)
     ([("/r".data, FsEntry.dir),
       ("/r/d".data, FsEntry.file (FileVal.bytes "NEW".data)),
       ("/s".data, FsEntry.file (FileVal.bytes "NEW".data)),
       ("/r/meta3".data, FsEntry.file (FileVal.jsonMeta
         (Meta.mk 0 [("d".data, "sha1:NEW".data)])))],
      Meta.mk 0 [("d".data, "sha1:NEW".data)],
      [(" [!!] overwrite".data, "d".data)],
      [("d".data, some (Chg.file "/s".data))],
      [Meta.mk 0 [], Meta.mk 0 [("d".data, "sha1:NEW".data)]])
     (by rfl) (by rfl) (by decide) (by decide) (by rfl)).2.2.1
     "/r/backup".data (by decide) (by decide)⟩

/-- Counterexample for C3 as stated: a full commit over an existing,
differing destination file destroys the old content: afterwards no path in
the filesystem holds the old bytes — nothing was renamed aside — and the
applied sequence contains only the install, no move/backup entry. -/
theorem c3_no_backup_counterexample :
    ((Installer.mk "/r".data (InstallSimulator.mk "/r".data
        [("d".data, some (Chg.file "/s".data))]) "/r/meta3b".data
        (Meta.mk 0 []) []).commit
      [("/r".data, FsEntry.dir),
       ("/r/d".data, FsEntry.file (FileVal.bytes "OLD".data)),
       ("/s".data, FsEntry.file (FileVal.bytes "NEW".data))] "/w".data).map
        (fun r => (r.applied, r.fs.all (fun kv =>
          kv.2 ≠ FsEntry.file (FileVal.bytes "OLD".data)))) =
      .ok ([("d".data, some (Chg.file "/s".data))], true) ∧
    ("/r/d".data, FsEntry.file (FileVal.bytes "OLD".data)) ∈
      ([("/r".data, FsEntry.dir),
        ("/r/d".data, FsEntry.file (FileVal.bytes "OLD".data)),
        ("/s".data, FsEntry.file (FileVal.bytes "NEW".data))] : Fs) :=
  ⟨by rfl, by decide⟩


theorem isfile_eval_none (fs : Fs) (cwd dst : PyStr) (s : InstallSimulator)
    (hl : s.changes.lookup (simNormpath cwd s.root dst) = none) :
    s.isfile fs cwd dst =
      osIsfile fs cwd (Posix.join s.root (simNormpath cwd s.root dst)) := by
  simp [InstallSimulator.isfile, hl]

theorem pexists_eval_none (fs : Fs) (cwd dst : PyStr) (s : InstallSimulator)
    (hl : s.changes.lookup (simNormpath cwd s.root dst) = none) :
    s.pexists fs cwd dst =
      osExists fs cwd (Posix.join s.root (simNormpath cwd s.root dst)) := by
  simp [InstallSimulator.pexists, hl]

theorem remove_file_marks (fs : Fs) (cwd : PyStr) (sim : InstallSimulator)
    (dst : PyStr) (hpe : sim.pexists fs cwd dst = true)
    (hif : sim.isfile fs cwd dst = true)
    (hos : osExists fs cwd (Posix.join sim.root dst) = true) :
    sim.remove_file fs cwd dst =
      .ok (InstallSimulator.mk sim.root
        (luodSet sim.changes (simNormpath cwd sim.root dst) none)) := by
  simp only [InstallSimulator.remove_file]
  rw [if_neg (by simp [hpe]), if_neg (by simp [hif]), if_neg (by simp [hos])]

theorem uninstallStep_ok (ins : Installer) (fs : Fs) (cwd : PyStr)
    (bl : List PyStr) (sim sim' : InstallSimulator) (k : PyStr)
    (h : uninstallStep ins fs cwd bl sim k = .ok sim') :
    sim'.root = sim.root ∧ ∀ k2, k2 ≠ simNormpath cwd sim.root k →
      sim'.changes.lookup k2 = sim.changes.lookup k2 := by
  simp only [uninstallStep] at h
  split at h
  next h1 =>
    obtain rfl := Except.ok.inj h
    exact ⟨rfl, fun _ _ => rfl⟩
  next h1 =>
    split at h
    next v hv =>
      split at h
      next h2 =>
        split at h
        next h3 =>
          exact ⟨rmdir_root fs cwd sim sim' k h,
            rmdir_lookup_ne fs cwd sim sim' k h⟩
        next h3 =>
          obtain rfl := Except.ok.inj h
          exact ⟨rfl, fun _ _ => rfl⟩
      next h2 =>
        split at h
        next h3 =>
          exact ⟨remove_file_root fs cwd sim sim' k h,
            remove_file_lookup_ne fs cwd sim sim' k h⟩
        next h3 =>
          obtain rfl := Except.ok.inj h
          exact ⟨rfl, fun _ _ => rfl⟩
    next hv =>
      obtain rfl := Except.ok.inj h
      exact ⟨rfl, fun _ _ => rfl⟩

theorem uninstallStep_skip (ins : Installer) (fs : Fs) (cwd : PyStr)
    (bl : List PyStr) (sim : InstallSimulator) (k : PyStr)
    (hun : (ins.unmodified.lookup k).isSome = false)
    (hv : ∀ v, ins.meta.files.lookup k = some v → v ≠ M_HASH_DIR) :
    uninstallStep ins fs cwd bl sim k = .ok sim := by
  simp only [uninstallStep]
  by_cases hbl : k ∈ bl
  · rw [if_pos hbl]
  · rw [if_neg hbl]
    cases hlk : ins.meta.files.lookup k with
    | none => rfl
    | some v => simp [hv v hlk, hun]

theorem uninstallStep_removes (ins : Installer) (fs : Fs) (cwd : PyStr)
    (bl : List PyStr) (sim : InstallSimulator) (k v : PyStr)
    (hbl : k ∉ bl)
    (hlk : ins.meta.files.lookup k = some v)
    (hvd : v ≠ M_HASH_DIR)
    (hus : (ins.unmodified.lookup k).isSome = true)
    (hif : sim.isfile fs cwd k = true)
    (hpe : sim.pexists fs cwd k = true)
    (hos : osExists fs cwd (Posix.join sim.root k) = true) :
    uninstallStep ins fs cwd bl sim k =
      .ok (InstallSimulator.mk sim.root
        (luodSet sim.changes (simNormpath cwd sim.root k) none)) := by
  simp only [uninstallStep, hlk]
  rw [if_neg hbl, if_neg hvd, if_pos ⟨hif, hus⟩]
  exact remove_file_marks fs cwd sim k hpe hif hos

theorem uninstall_fold_preserve (ins : Installer) (fs : Fs) (cwd : PyStr)
    (bl : List PyStr) (R K : PyStr) :
    ∀ (KS : List PyStr) (sim0 simF : InstallSimulator),
      sim0.root = R →
      (∀ l ∈ KS, simNormpath cwd R l ≠ K) →
      List.foldlM (uninstallStep ins fs cwd bl) sim0 KS = .ok simF →
      simF.root = R ∧ simF.changes.lookup K = sim0.changes.lookup K := by
  intro KS
  induction KS with
  | nil =>
    intro sim0 simF hroot _ h
    obtain rfl := Except.ok.inj h
    exact ⟨hroot, rfl⟩
  | cons l ls ih =>
    intro sim0 simF hroot hK h
    rw [List.foldlM_cons] at h
    cases hstep : uninstallStep ins fs cwd bl sim0 l with
    | error e => rw [hstep] at h; cases h
    | ok sim1 =>
      rw [hstep] at h
      obtain ⟨hroot1, hlook1⟩ :=
        uninstallStep_ok ins fs cwd bl sim0 sim1 l hstep
      obtain ⟨hrootF, hlookF⟩ := ih sim1 simF (hroot1.trans hroot)
        (fun l2 hl2 => hK l2 (List.mem_cons_of_mem l hl2)) h
      refine ⟨hrootF, hlookF.trans (hlook1 K ?_)⟩
      intro hcontra
      exact hK l (List.mem_cons_self l ls) (by rw [hroot] at hcontra; exact hcontra.symm)

theorem insertByLenDesc_perm (x : PyStr) :
    ∀ ys : List PyStr, (insertByLenDesc x ys).Perm (x :: ys) := by
  intro ys
  induction ys with
  | nil => exact List.Perm.refl _
  | cons y ys ih =>
    rw [insertByLenDesc]
    split_ifs with h1
    · exact (List.Perm.cons y ih).trans (List.Perm.swap x y ys)
    · exact List.Perm.refl _

theorem sortByLenDesc_perm (l : List PyStr) : (sortByLenDesc l).Perm l := by
  induction l with
  | nil => exact List.Perm.refl _
  | cons x xs ih =>
    rw [sortByLenDesc, List.foldr_cons]
    exact (insertByLenDesc_perm x _).trans (List.Perm.cons x ih)

theorem lookup_some_mem_keys {α : Type} (m : List (PyStr × α)) (k : PyStr)
    (v : α) (h : m.lookup k = some v) : k ∈ m.map Prod.fst := by
  induction m with
  | nil => cases h
  | cons kv rest ih =>
    rw [lookup_cons_eqn] at h
    by_cases hk : k = kv.1
    · rw [List.map_cons, hk]
      exact List.mem_cons_self _ _
    · rw [if_neg hk] at h
      exact List.mem_cons_of_mem _ (ih h)

theorem computeUnmodified_aux (fs : Fs) (cwd root k : PyStr) (v : PyStr) :
    ∀ (files acc : List (PyStr × PyStr)),
      (acc.lookup k = some v →
        v ≠ M_HASH_DIR ∧ ∃ fv, osStat fs cwd (Posix.join root k) =
          some (FsEntry.file fv) ∧ v = hashFile fv) →
      ((files.foldl (fun acc kv =>
        if kv.2 = M_HASH_DIR then acc
        else
          match osStat fs cwd (Posix.join root kv.1) with
          | some (.file fv) =>
            if kv.2 = hashFile fv then acc ++ [(kv.1, kv.2)] else acc
          | _ => acc) acc).lookup k = some v →
        v ≠ M_HASH_DIR ∧ ∃ fv, osStat fs cwd (Posix.join root k) =
          some (FsEntry.file fv) ∧ v = hashFile fv) := by
  intro files
  induction files with
  | nil => intro acc hacc h; exact hacc h
  | cons kv rest ih =>
    intro acc hacc h
    rw [List.foldl_cons] at h
    refine ih _ ?_ h
    intro h2
    by_cases hd : kv.2 = M_HASH_DIR
    · rw [if_pos hd] at h2
      exact hacc h2
    · rw [if_neg hd] at h2
      cases hst : osStat fs cwd (Posix.join root kv.1) with
      | none =>
        rw [hst] at h2
        exact hacc h2
      | some e =>
        rw [hst] at h2
        cases e with
        | dir => exact hacc h2
        | file fv =>
          replace h2 : (if kv.2 = hashFile fv then acc ++ [(kv.1, kv.2)]
              else acc).lookup k = some v := h2
          by_cases hh : kv.2 = hashFile fv
          · rw [if_pos hh] at h2
            cases hacc2 : acc.lookup k with
            | some b =>
              rw [lookup_append_left acc _ k b hacc2] at h2
              exact hacc (hacc2.trans (by rw [Option.some.inj h2]))
            | none =>
              rw [lookup_append_right acc _ k hacc2, lookup_cons_eqn] at h2
              by_cases hk : k = kv.1
              · rw [if_pos hk] at h2
                obtain rfl := Option.some.inj h2
                subst hk
                exact ⟨hd, fv, hst, hh⟩
              · rw [if_neg hk] at h2
                cases h2
          · rw [if_neg hh] at h2
            exact hacc h2

theorem computeUnmodified_lookup (fs : Fs) (cwd root : PyStr)
    (files : List (PyStr × PyStr)) (k v : PyStr)
    (h : (computeUnmodified fs cwd root files).lookup k = some v) :
    v ≠ M_HASH_DIR ∧ ∃ fv, osStat fs cwd (Posix.join root k) =
      some (FsEntry.file fv) ∧ v = hashFile fv :=
  computeUnmodified_aux fs cwd root k v files [] (fun h2 => by cases h2) h


/-- C4 (corrected): on a fresh plan, uninstall leaves every recorded file
whose fingerprint no longer matches (and every foreign path) untouched — no
pending operation is created at its key — and plans deletion of every
recorded, still-matching file except those on the blacklist, which are
skipped even when unmodified. -/
theorem c4_uninstall_protects_modified (fs : Fs) (cwd : PyStr)
    (ins ins' : Installer)
    (hc : Posix.CanonicalRoot ins.sim.root)
    (hempty : ins.sim.changes = [])
    (hnodup : (ins.meta.files.map (fun kv =>
      simNormpath cwd ins.sim.root kv.1)).Nodup)
    (hunmod : ins.unmodified =
      computeUnmodified fs cwd ins.sim.root ins.meta.files)
    (h : ins.uninstall fs cwd = .ok ins') :
    (∀ k v, ins.meta.files.lookup k = some v → v ≠ M_HASH_DIR →
      ins.unmodified.lookup k = none →
      ins'.sim.changes.lookup (simNormpath cwd ins.sim.root k) = none) ∧
    (∀ p, simNormpath cwd ins.sim.root p ∉
        ins.meta.files.map (fun kv => simNormpath cwd ins.sim.root kv.1) →
      ins'.sim.changes.lookup (simNormpath cwd ins.sim.root p) = none) ∧
    (∀ k v, ins.meta.files.lookup k = some v → v ≠ M_HASH_DIR →
      (ins.unmodified.lookup k).isSome = true →
      k ∉ BLACKLIST.map (fun b => simNormpath cwd ins.sim.root b) →
      ins'.sim.changes.lookup (simNormpath cwd ins.sim.root k) =
        some none) := by
  simp only [Installer.uninstall] at h
  split at h
  next e heqF => cases h
  next simW heqF =>
    obtain rfl := Except.ok.inj h
    have hperm : (sortByLenDesc (ins.meta.files.map (fun kv => kv.1))).Perm
        (ins.meta.files.map (fun kv => kv.1)) := sortByLenDesc_perm _
    have hnodup2 : ((sortByLenDesc (ins.meta.files.map
        (fun kv => kv.1))).map
        (fun l => simNormpath cwd ins.sim.root l)).Nodup := by
      refine ((hperm.map (fun l => simNormpath cwd ins.sim.root l)).nodup_iff).mpr ?_
      simpa [List.map_map, Function.comp] using hnodup
    refine ⟨?_, ?_, ?_⟩
    · intro k v hlk hvd hun
      have hkmem : k ∈ ins.meta.files.map Prod.fst :=
        lookup_some_mem_keys _ k v hlk
      have hkmem2 : k ∈ sortByLenDesc (ins.meta.files.map (fun kv => kv.1)) :=
        hperm.mem_iff.mpr hkmem
      obtain ⟨S1, S2, hdec⟩ := List.append_of_mem hkmem2
      rw [hdec] at heqF
      rw [List.foldlM_append] at heqF
      cases h1 : List.foldlM (uninstallStep ins fs cwd
          (List.map (fun b => simNormpath cwd ins.sim.root b) BLACKLIST))
          ins.sim S1 with
      | error e => rw [h1] at heqF; cases heqF
      | ok sim1 =>
        rw [h1] at heqF
        replace heqF : List.foldlM (uninstallStep ins fs cwd
            (List.map (fun b => simNormpath cwd ins.sim.root b) BLACKLIST))
            sim1 (k :: S2) = .ok simW := heqF
        rw [List.foldlM_cons] at heqF
        have hnodup3 := hnodup2
        rw [hdec, List.map_append, List.map_cons] at hnodup3
        obtain ⟨hn1, hn2, hdisj⟩ := List.nodup_append.mp hnodup3
        have hS1 : ∀ l ∈ S1, simNormpath cwd ins.sim.root l ≠
            simNormpath cwd ins.sim.root k := by
          intro l hl hcontra
          exact hdisj (List.mem_map.mpr ⟨l, hl, rfl⟩)
            (hcontra ▸ List.mem_cons_self _ _)
        have hS2 : ∀ l ∈ S2, simNormpath cwd ins.sim.root l ≠
            simNormpath cwd ins.sim.root k := by
          intro l hl hcontra
          exact (List.nodup_cons.mp hn2).1
            (hcontra ▸ List.mem_map.mpr ⟨l, hl, rfl⟩)
        obtain ⟨hroot1, hlook1⟩ := uninstall_fold_preserve ins fs cwd _
          ins.sim.root (simNormpath cwd ins.sim.root k) S1 ins.sim sim1
          rfl hS1 h1
        have hlook1' : sim1.changes.lookup
            (simNormpath cwd ins.sim.root k) = none := by
          rw [hlook1, hempty]
          rfl
        rw [uninstallStep_skip ins fs cwd _ sim1 k (by rw [hun]; rfl)
          (fun v' hv' => by
            obtain rfl := Option.some.inj (hlk.symm.trans hv')
            exact hvd)] at heqF
        replace heqF : List.foldlM (uninstallStep ins fs cwd
            (List.map (fun b => simNormpath cwd ins.sim.root b) BLACKLIST))
            sim1 S2 = .ok simW := heqF
        obtain ⟨_, hlookF⟩ := uninstall_fold_preserve ins fs cwd _
          ins.sim.root (simNormpath cwd ins.sim.root k) S2 sim1 simW
          hroot1 hS2 heqF
        show simW.changes.lookup (simNormpath cwd ins.sim.root k) = none
        rw [hlookF]
        exact hlook1'
    · intro p hp
      have hK : ∀ l ∈ sortByLenDesc (ins.meta.files.map (fun kv => kv.1)),
          simNormpath cwd ins.sim.root l ≠
            simNormpath cwd ins.sim.root p := by
        intro l hl hcontra
        refine hp ?_
        obtain ⟨kv, hkv, rfl⟩ := List.mem_map.mp (hperm.mem_iff.mp hl)
        rw [← hcontra]
        exact List.mem_map.mpr ⟨kv, hkv, rfl⟩
      obtain ⟨_, hlookF⟩ := uninstall_fold_preserve ins fs cwd _
        ins.sim.root (simNormpath cwd ins.sim.root p) _ ins.sim simW
        rfl hK heqF
      show simW.changes.lookup (simNormpath cwd ins.sim.root p) = none
      rw [hlookF, hempty]
      rfl
    · intro k v hlk hvd hus hbl
      have hkmem : k ∈ ins.meta.files.map Prod.fst :=
        lookup_some_mem_keys _ k v hlk
      have hkmem2 : k ∈ sortByLenDesc (ins.meta.files.map (fun kv => kv.1)) :=
        hperm.mem_iff.mpr hkmem
      obtain ⟨S1, S2, hdec⟩ := List.append_of_mem hkmem2
      rw [hdec] at heqF
      rw [List.foldlM_append] at heqF
      cases h1 : List.foldlM (uninstallStep ins fs cwd
          (List.map (fun b => simNormpath cwd ins.sim.root b) BLACKLIST))
          ins.sim S1 with
      | error e => rw [h1] at heqF; cases heqF
      | ok sim1 =>
        rw [h1] at heqF
        replace heqF : List.foldlM (uninstallStep ins fs cwd
            (List.map (fun b => simNormpath cwd ins.sim.root b) BLACKLIST))
            sim1 (k :: S2) = .ok simW := heqF
        rw [List.foldlM_cons] at heqF
        have hnodup3 := hnodup2
        rw [hdec, List.map_append, List.map_cons] at hnodup3
        obtain ⟨hn1, hn2, hdisj⟩ := List.nodup_append.mp hnodup3
        have hS1 : ∀ l ∈ S1, simNormpath cwd ins.sim.root l ≠
            simNormpath cwd ins.sim.root k := by
          intro l hl hcontra
          exact hdisj (List.mem_map.mpr ⟨l, hl, rfl⟩)
            (hcontra ▸ List.mem_cons_self _ _)
        have hS2 : ∀ l ∈ S2, simNormpath cwd ins.sim.root l ≠
            simNormpath cwd ins.sim.root k := by
          intro l hl hcontra
          exact (List.nodup_cons.mp hn2).1
            (hcontra ▸ List.mem_map.mpr ⟨l, hl, rfl⟩)
        obtain ⟨hroot1, hlook1⟩ := uninstall_fold_preserve ins fs cwd _
          ins.sim.root (simNormpath cwd ins.sim.root k) S1 ins.sim sim1
          rfl hS1 h1
        have hlook1' : sim1.changes.lookup
            (simNormpath cwd ins.sim.root k) = none := by
          rw [hlook1, hempty]
          rfl
        have hkey1 : simNormpath cwd sim1.root k =
            simNormpath cwd ins.sim.root k := by rw [hroot1]
        obtain ⟨u, hu⟩ := Option.isSome_iff_exists.mp hus
        rw [hunmod] at hu
        obtain ⟨_, fv, hstat, _⟩ :=
          computeUnmodified_lookup fs cwd ins.sim.root ins.meta.files k u hu
        have hcan1 : Posix.CanonicalRoot sim1.root := by
          rw [hroot1]
          exact hc
        have hl1 : sim1.changes.lookup (simNormpath cwd sim1.root k) =
            none := by
          rw [hkey1]
          exact hlook1'
        have hosr : osExists fs cwd (Posix.join sim1.root k) = true := by
          rw [hroot1, osExists, hstat]
          rfl
        have hif : sim1.isfile fs cwd k = true := by
          rw [isfile_eval_none fs cwd k sim1 hl1,
            osIsfile_congr fs cwd _ _ (osCanon_join_key cwd sim1.root k hcan1),
            hroot1]
          simp [osIsfile, hstat]
        have hpe : sim1.pexists fs cwd k = true := by
          rw [pexists_eval_none fs cwd k sim1 hl1,
            osExists_congr fs cwd _ _ (osCanon_join_key cwd sim1.root k hcan1),
            hroot1, osExists, hstat]
          rfl
        rw [uninstallStep_removes ins fs cwd _ sim1 k v hbl hlk hvd hus
          hif hpe hosr] at heqF
        replace heqF : List.foldlM (uninstallStep ins fs cwd
            (List.map (fun b => simNormpath cwd ins.sim.root b) BLACKLIST))
            (InstallSimulator.mk sim1.root
              (luodSet sim1.changes (simNormpath cwd sim1.root k) none))
            S2 = .ok simW := heqF
        obtain ⟨_, hlookF⟩ := uninstall_fold_preserve ins fs cwd _
          ins.sim.root (simNormpath cwd ins.sim.root k) S2
          (InstallSimulator.mk sim1.root
            (luodSet sim1.changes (simNormpath cwd sim1.root k) none))
          simW hroot1 hS2 heqF
        show simW.changes.lookup (simNormpath cwd ins.sim.root k) = some none
        rw [hlookF]
        show (luodSet sim1.changes (simNormpath cwd sim1.root k) none).lookup
          (simNormpath cwd ins.sim.root k) = some none
        rw [← hkey1]
        exact lookup_luodSet_self _ _ _

/-- Counterexample for C4 as stated: a recorded file whose fingerprint still
matches is nonetheless not planned for deletion when it is on the blacklist
(`bin/bink2w64.dll`): uninstall returns with no pending change at all. -/
theorem c4_blacklist_counterexample :
    (Installer.mk "/r".data (InstallSimulator.mk "/r".data [])
        "/r/metaB".data
        (Meta.mk 0 [("bin/bink2w64.dll".data, "sha1:B".data)])
        [("bin/bink2w64.dll".data, "sha1:B".data)]).uninstall
      [("/r".data, FsEntry.dir), ("/r/bin".data, FsEntry.dir),
       ("/r/bin/bink2w64.dll".data, FsEntry.file (FileVal.bytes "B".data))]
      "/w".data =
      .ok (Installer.mk "/r".data (InstallSimulator.mk "/r".data [])
        "/r/metaB".data
        (Meta.mk 0 [("bin/bink2w64.dll".data, "sha1:B".data)])
        [("bin/bink2w64.dll".data, "sha1:B".data)]) ∧
    computeUnmodified
      [("/r".data, FsEntry.dir), ("/r/bin".data, FsEntry.dir),
       ("/r/bin/bink2w64.dll".data, FsEntry.file (FileVal.bytes "B".data))]
      "/w".data "/r".data [("bin/bink2w64.dll".data, "sha1:B".data)] =
      [("bin/bink2w64.dll".data, "sha1:B".data)] ∧
    "sha1:B".data = hashFile (FileVal.bytes "B".data) :=
  ⟨by rfl, by rfl, by rfl⟩

/-- Witness for C4: with `f` recorded and unmodified and `g` recorded but
absent, uninstall plans deletion of `f` only; the modified/foreign paths get
no pending entry. -/
theorem c4_uninstall_protects_modified_witness :
    (Installer.mk "/r".data (InstallSimulator.mk "/r".data [])
        "/r/metaC".data
        (Meta.mk 0 [("f".data, "sha1:X".data), ("g".data, "sha1:Y".data)])
        [("f".data, "sha1:X".data)]).uninstall
      [("/r".data, FsEntry.dir),
       ("/r/f".data, FsEntry.file (FileVal.bytes "X".data))] "/w".data =
      .ok (Installer.mk "/r".data
        (InstallSimulator.mk "/r".data [("f".data, (none : Option Chg))])
        "/r/metaC".data
        (Meta.mk 0 [("f".data, "sha1:X".data), ("g".data, "sha1:Y".data)])
        [("f".data, "sha1:X".data)]) ∧
    ([("f".data, (none : Option Chg))] : List (PyStr × Option Chg)).lookup
      (simNormpath "/w".data "/r".data "g".data) = none ∧
    ([("f".data, (none : Option Chg))] : List (PyStr × Option Chg)).lookup
      (simNormpath "/w".data "/r".data "x".data) = none ∧
    ([("f".data, (none : Option Chg))] : List (PyStr × Option Chg)).lookup
      (simNormpath "/w".data "/r".data "f".data) = some none :=
  ⟨by rfl,
   (c4_uninstall_protects_modified
     [("/r".data, FsEntry.dir),
      ("/r/f".data, FsEntry.file (FileVal.bytes "X".data))] "/w".data
     (Installer.mk "/r".data (InstallSimulator.mk "/r".data [])
       "/r/metaC".data
       (Meta.mk 0 [("f".data, "sha1:X".data), ("g".data, "sha1:Y".data)])
       [("f".data, "sha1:X".data)]) _
     ⟨by decide, by decide, by decide⟩ rfl (by decide) (by rfl)
     (by rfl)).1 "g".data "sha1:Y".data (by rfl) (by decide) (by rfl),
   (c4_uninstall_protects_modified
     [("/r".data, FsEntry.dir),
      ("/r/f".data, FsEntry.file (FileVal.bytes "X".data))] "/w".data
     (Installer.mk "/r".data (InstallSimulator.mk "/r".data [])
       "/r/metaC".data
       (Meta.mk 0 [("f".data, "sha1:X".data), ("g".data, "sha1:Y".data)])
       [("f".data, "sha1:X".data)]) _
     ⟨by decide, by decide, by decide⟩ rfl (by decide) (by rfl)
     (by rfl)).2.1 "x".data (by decide),
   (c4_uninstall_protects_modified
     [("/r".data, FsEntry.dir),
      ("/r/f".data, FsEntry.file (FileVal.bytes "X".data))] "/w".data
     (Installer.mk "/r".data (InstallSimulator.mk "/r".data [])
       "/r/metaC".data
       (Meta.mk 0 [("f".data, "sha1:X".data), ("g".data, "sha1:Y".data)])
       [("f".data, "sha1:X".data)]) _
     ⟨by decide, by decide, by decide⟩ rfl (by decide) (by rfl)
     (by rfl)).2.2 "f".data "sha1:X".data (by rfl) (by decide) (by rfl)
     (by decide)⟩


/-- C7: the escape guard is a slip: on the input `"\"" "v"`, where the claim
requires the backslash-escaped quote inside the quoted key to decode to a
quote character (yielding the pair `"` maps-to `v`), the code instead
terminates the key token at the escaped quote (the guard compares the very
character just appended) and raises a bad-string parse error. -/
theorem c7_escaped_quote_terminates_token :
    parseVdf [qc, bsc, qc, qc, ' ', qc, 'v', qc] =
      .error ⟨1, 2, .badString [qc, bsc, qc]⟩ := by rfl
